import Mathlib

/-!
Verification of `tarp::disjoint_range_tree` (src/include/tarp/disjoint_range_tree.hpp).

The C++ class stores non-overlapping, non-adjacent closed integer ranges in a
`std::map<T, T>` keyed by the low endpoint (value = high endpoint), with a lazily
cached aggregate size `mutable std::optional<std::size_t> m_range_size`.

Shallow embedding conventions:
* The ordered map is a `List (Int × Int)` kept sorted by key; `std::map` operations
  (lower_bound, insert, insert-with-hint, erase by key, erase of an iterator range)
  are modelled positionally on that list.
* The element type `T` is modelled as `Int`.  All arithmetic the algorithms perform
  (`high + 1`, `low - 1`, `i->first - high`) is guarded in the source so that it
  never overflows for any fixed-width instantiation (e.g. `prev->second + 1` is
  evaluated only when `prev->second < it->first`), hence unbounded integers are a
  faithful model of the tree algorithms.  `range::size()` at a fixed width is
  modelled separately (`range_size_u64`) because there the arithmetic does wrap.
* The forward merge scan of `try_merge` advances `i` with `std::next` and then reads
  `i->first` / `i->second` without re-checking for the end iterator, so when the
  scan runs off the last entry the C++ dereferences the past-the-end iterator —
  undefined behaviour, and the read value feeds the gap test and the merged high.
  The embedding totalizes this read: reaching the end of the list stops the scan
  (the behaviour the surrounding code is clearly written for).  Consequently,
  statements about post-insertion states are statements about this scan-stop
  model, not about the program: claims that depend on them are settled as code
  bugs, not confirmed.  The separate instrumented definitions `mergeScanHitsEnd`
  / `addRangeHitsEnd` record exactly when the out-of-bounds read happens.
* `remove`'s scan loop does not advance the iterator in its truncate-low branch
  (it truncates in place and re-classifies), so it is not structurally recursive;
  it is given fuel `2 * length + 2`, which is proven sufficient.
  The two `throw std::logic_error` sites in `remove` are modelled by `none`.
-/

namespace tarp

abbrev Entry := Int × Int

/-- The nested `struct range`: a closed interval `(low, high)`.
Construction enforces `low ≤ high` (else `std::invalid_argument`); that
precondition is carried as a hypothesis of the theorems. -/
structure Range where
  low : Int
  high : Int
deriving DecidableEq, Repr

/-- `range::contains(const range&)`: `other.low >= low && other.high <= high`. -/
def Range.contains (self other : Range) : Prop :=
  other.low ≥ self.low ∧ other.high ≤ self.high

instance (a b : Range) : Decidable (a.contains b) :=
  inferInstanceAs (Decidable (_ ∧ _))

/-- `range::contains(T v)`: `contains(range(v, v))`. -/
def Range.containsPt (self : Range) (v : Int) : Prop :=
  self.contains ⟨v, v⟩

instance (a : Range) (v : Int) : Decidable (a.containsPt v) :=
  inferInstanceAs (Decidable (Range.contains _ _))

/-- `range::equals(const range&)`: fieldwise equality. -/
def Range.equals (a b : Range) : Prop :=
  a.low = b.low ∧ a.high = b.high

instance (a b : Range) : Decidable (a.equals b) :=
  inferInstanceAs (Decidable (_ ∧ _))

/-- The tree: `std::map<T, T> m_ranges` (sorted low → high) plus the mutable
cached aggregate size `std::optional<std::size_t> m_range_size`. -/
structure disjoint_range_tree where
  m_ranges : List Entry
  m_range_size : Option Int
deriving DecidableEq, Repr

/-- A default-constructed tree: empty map, no cached size. -/
def drt_empty : disjoint_range_tree := { m_ranges := [], m_range_size := none }

namespace disjoint_range_tree

/-- `empty()`. -/
def empty (s : disjoint_range_tree) : Prop := s.m_ranges = []

/-- `range_count()`: number of stored disjoint ranges. -/
def range_count (s : disjoint_range_tree) : Nat := s.m_ranges.length

/-- Sum of `range(low, high).size()` over all entries, in map order: the loop
body of `size()` (`size += range(low, high).size()` with `size = (high-low)+1`).
The accumulation is modelled in unbounded `Int`, where the source's `size_t`
arithmetic wraps at domain extremes (see `range_size_u64`): this definition
therefore backs only statements where both sides perform the identical
computation (the cache-coherence claim), not a claim that `size()` equals an
exact mathematical cardinality for all inputs. -/
def sumSizes : List Entry → Int
  | [] => 0
  | e :: tl => ((e.2 - e.1) + 1) + sumSizes tl

/-- `size()`: return the cached aggregate if present, else recompute by summing
and cache the result.  The mutation of the `mutable` cache is modelled by
returning the updated tree alongside the value. -/
def size (s : disjoint_range_tree) : Int × disjoint_range_tree :=
  match s.m_range_size with
  | some n => (n, s)
  | none =>
    let n := sumSizes s.m_ranges
    (n, { s with m_range_size := some n })

/-- `contains(range r)`: lower_bound on `r.low`, step back one entry if the
lower bound overshoots (or is `end()`), then test full containment.  Returns
`Bool` as the C++ does. -/
def contains (s : disjoint_range_tree) (r : Range) : Bool :=
  if s.m_ranges = [] then false
  else
    let a := s.m_ranges.takeWhile (fun e => e.1 < r.low)
    let b := s.m_ranges.dropWhile (fun e => e.1 < r.low)
    match b with
    | [] =>
      -- it == end(): step to prev, which is the last element of `a`
      match a.getLast? with
      | some p => decide (Range.contains ⟨p.1, p.2⟩ r)
      | none => false
    | (k, v) :: _ =>
      if a ≠ [] ∧ k > r.low then
        match a.getLast? with
        | some p => decide (Range.contains ⟨p.1, p.2⟩ r)
        | none => false
      else decide (Range.contains ⟨k, v⟩ r)

/-- `contains(T v)`. -/
def containsPt (s : disjoint_range_tree) (v : Int) : Bool :=
  s.contains ⟨v, v⟩

/-- `lowest()`: key of the first entry, absent when the map is empty. -/
def lowest (s : disjoint_range_tree) : Option Int :=
  match s.m_ranges with
  | [] => none
  | e :: _ => some e.1

/-- `highest()`: value of the last entry, absent when the map is empty. -/
def highest (s : disjoint_range_tree) : Option Int :=
  match s.m_ranges.getLast? with
  | none => none
  | some e => some e.2

/-- The forward merge scan of `try_merge` (lines 339-349): starting with the
accumulated `high` of the scan origin, walk the successor entries; stop at the
first true gap (`i->first > high && i->first - high > 1`), otherwise absorb
(`high = max(high, i->second)`).  Returns the final `high` and the suffix of
entries not absorbed.  Reaching the end of the list stops the scan (in the C++
this situation dereferences the past-the-end iterator; see `mergeScanHitsEnd`). -/
def mergeScan (high : Int) : List Entry → Int × List Entry
  | [] => (high, [])
  | (k, v) :: tl =>
    if k > high ∧ k - high > 1 then (high, (k, v) :: tl)
    else mergeScan (max high v) tl

/-- `try_merge(it)`: `before` are the entries before `it`, `cur` the entry `it`
points at, `after` the entries after it.  If the previous entry overlaps or is
adjacent to `cur` (`prev->second >= it->first || prev->second + 1 == it->first`),
the scan starts from the previous entry instead; the scan's absorbed entries are
then erased (`m_ranges.erase(it, i)` after stepping `it` forward once). -/
def try_merge (before : List Entry) (cur : Entry) (after : List Entry) : List Entry :=
  match before.getLast? with
  | some p =>
    if p.2 ≥ cur.1 ∨ p.2 + 1 = cur.1 then
      let s := mergeScan p.2 (cur :: after)
      before.dropLast ++ (p.1, s.1) :: s.2
    else
      let s := mergeScan cur.2 after
      before ++ (cur.1, s.1) :: s.2
  | none =>
    let s := mergeScan cur.2 after
    (cur.1, s.1) :: s.2

/-- `add_range(range r)`: lower_bound on `r.low`; insert a new entry if no key
collision; else extend the colliding entry unless it already covers `r` (early
return, which skips the cache invalidation at the end); then `try_merge` and
invalidate the cached size. -/
def add_range (r : Range) (s : disjoint_range_tree) : disjoint_range_tree :=
  let a := s.m_ranges.takeWhile (fun e => e.1 < r.low)
  let b := s.m_ranges.dropWhile (fun e => e.1 < r.low)
  match b with
  | [] =>
    { m_ranges := try_merge a (r.low, r.high) [], m_range_size := none }
  | (k, v) :: tl =>
    if k ≠ r.low then
      { m_ranges := try_merge a (r.low, r.high) ((k, v) :: tl), m_range_size := none }
    else if v ≥ r.high then s  -- no-op: early return, cache untouched
    else
      { m_ranges := try_merge a (r.low, r.high) tl, m_range_size := none }

/-- `std::map::erase(key)`: remove the entry keyed `k`, if present. -/
def eraseKey (k : Int) : List Entry → List Entry
  | [] => []
  | e :: tl => if e.1 = k then tl else e :: eraseKey k tl

/-- `std::map::insert(make_pair(k, v))`: insert at the sorted position; a no-op
if the key is already present (`std::map` does not overwrite). -/
def mapInsert (k v : Int) : List Entry → List Entry
  | [] => [(k, v)]
  | e :: tl =>
    if k < e.1 then (k, v) :: e :: tl
    else if k = e.1 then e :: tl
    else e :: mapInsert k v tl

/-- The scan loop of `remove(range x)` (lines 184-264).  `kept` are the entries
before `erase_start`, `pending` the entries in `[erase_start, it)` (collected
for the bulk erase), `rest` the entries from `it` on; the current map is always
`kept ++ pending ++ rest`.  `removed` is the local flag of the same name.
`none` models either `throw std::logic_error` site (and the fuel running out,
which is proven impossible: each step either shortens `rest` or truncates its
head's value below `x.low`). -/
def removeLoop (x : Range) :
    Nat → List Entry → List Entry → List Entry → Bool → Option (List Entry × Bool)
  | 0, _, _, _, _ => none
  | _ + 1, kept, pending, [], removed =>
    -- loop exit: erase the collected contiguous run, report whether any removed
    some (kept, removed || !pending.isEmpty)
  | fuel + 1, kept, pending, (k, v) :: tl, removed =>
    -- `r = range(it->first, it->second)`, i.e. r.low = k and r.high = v
    let r : Range := ⟨k, v⟩
    if r.equals x then
      -- r and x identical: erase r (by its key r.low = k), done
      some (eraseKey k (kept ++ pending ++ (k, v) :: tl), true)
    else if r.contains x then
      -- x contained within r: erase r, re-insert subrange(s), done
      let m := eraseKey k (kept ++ pending ++ (k, v) :: tl)
      let m := if v > x.high then mapInsert (x.high + 1) v m else m
      let m := if x.low > k then mapInsert k (x.low - 1) m else m
      some (m, true)
    else if x.contains r then
      -- r contained within x: collect for the bulk erase after the loop
      removeLoop x fuel kept (pending ++ [(k, v)]) tl removed
    else if x.high < k then
      -- gap, stop here
      some (kept ++ (k, v) :: tl, removed || !pending.isEmpty)
    else if x.low > v then
      -- r completely below x: skip it, reset erase_start past it
      removeLoop x fuel (kept ++ pending ++ [(k, v)]) [] tl removed
    else if x.low ≤ v ∧ v < x.high then
      -- x starts within r and ends after it: trim off the high end of r
      if k = v then none  -- throw: BUG size-1 range not caught
      else if x.low = x.high then none  -- throw: BUG size-1 range not caught [2]
      else removeLoop x fuel (kept ++ pending) [] ((k, x.low - 1) :: tl) true
    else if x.high ≥ k ∧ v > x.high then
      -- x ends within r and starts before it: bulk-erase run plus r,
      -- re-insert r with its lower end trimmed off
      let m := kept ++ tl
      some ((if v > k then mapInsert (x.high + 1) v m else m), true)
    else
      -- unreachable: the previous guards are exhaustive (proved below);
      -- in the C++ this would repeat the loop body with unchanged state
      none

/-- `remove(range x)`: invalidate the cache, locate the scan start (greatest
entry with key < `x.low` if any, else the lower bound), then run the scan loop.
Returns `none` for the (unreachable) `std::logic_error` throws. -/
def remove (x : Range) (s : disjoint_range_tree) : Option (disjoint_range_tree × Bool) :=
  let a := s.m_ranges.takeWhile (fun e => e.1 < x.low)
  let b := s.m_ranges.dropWhile (fun e => e.1 < x.low)
  let res :=
    match a.getLast? with
    | some p => removeLoop x (2 * (p :: b).length + 2) a.dropLast [] (p :: b) false
    | none => removeLoop x (2 * b.length + 2) [] [] b false
  res.map (fun pr => ({ m_ranges := pr.1, m_range_size := none }, pr.2))

end disjoint_range_tree

/-! ### Instrumentation for the past-the-end read in `try_merge` (claim C3)

`mergeScanHitsEnd` is `true` exactly when the C++ forward merge scan executes
`i = std::next(i)` landing on the past-the-end position and then reads
`i->first` (line 342) there: in the list model, that is the scan running off
the end of the successor list. -/

/-- Records whether the forward merge scan reads the past-the-end position. -/
def mergeScanHitsEnd (high : Int) : List Entry → Bool
  | [] => true
  | (k, v) :: tl =>
    if k > high ∧ k - high > 1 then false
    else mergeScanHitsEnd (max high v) tl

/-- `try_merge`, instrumented: does its forward scan read the end position? -/
def tryMergeHitsEnd (before : List Entry) (cur : Entry) (after : List Entry) : Bool :=
  match before.getLast? with
  | some p =>
    if p.2 ≥ cur.1 ∨ p.2 + 1 = cur.1 then
      mergeScanHitsEnd p.2 (cur :: after)
    else
      mergeScanHitsEnd cur.2 after
  | none => mergeScanHitsEnd cur.2 after

/-- `add_range`, instrumented: does the call's merge scan read the end position?
(The no-op early-return path never scans.) -/
def addRangeHitsEnd (r : Range) (s : disjoint_range_tree) : Bool :=
  let a := s.m_ranges.takeWhile (fun e => e.1 < r.low)
  let b := s.m_ranges.dropWhile (fun e => e.1 < r.low)
  match b with
  | [] => tryMergeHitsEnd a (r.low, r.high) []
  | (k, v) :: tl =>
    if k ≠ r.low then tryMergeHitsEnd a (r.low, r.high) ((k, v) :: tl)
    else if v ≥ r.high then false
    else tryMergeHitsEnd a (r.low, r.high) tl

/-! ### `range::size()` at a fixed width (claim C5)

For `T = std::uint64_t` the C++ `return (high - low) + 1;` computes
`high - low` modulo `2^64` (exact, since `low ≤ high < 2^64`), adds 1 modulo
`2^64`, and converts to `std::size_t` (identity at 64 bits). -/

/-- `range::size()` for `T = std::uint64_t`, with `low ≤ high < 2^64`. -/
def range_size_u64 (low high : Nat) : Nat := ((high - low) + 1) % 2 ^ 64

/-! ### Specification-side notions -/

/-- The set of integer points covered by the stored entries. -/
def ptsF : List Entry → Finset Int
  | [] => ∅
  | e :: tl => Finset.Icc e.1 e.2 ∪ ptsF tl

/-- Two entries are in "gap order": the second starts strictly above the first's
high plus one (no overlap, no adjacency). -/
def EGap (a b : Entry) : Prop := a.2 + 1 < b.1

instance (a b : Entry) : Decidable (EGap a b) := inferInstanceAs (Decidable (_ < _))

/-- The representation invariant of the stored map: every entry is a valid range
(`low ≤ high`) and consecutive entries are in gap order. -/
def Inv (l : List Entry) : Prop :=
  (∀ e ∈ l, e.1 ≤ e.2) ∧ l.Chain' EGap

instance (l : List Entry) : Decidable (Inv l) :=
  inferInstanceAs (Decidable (_ ∧ _))

/-- The cached aggregate size, when present, equals the sum of the stored
ranges' sizes. -/
def CacheOK (s : disjoint_range_tree) : Prop :=
  ∀ n, s.m_range_size = some n → n = disjoint_range_tree.sumSizes s.m_ranges

/-- An operation of the external interface used by the sequence-based claims. -/
inductive Op where
  | add (r : Range)
  | rem (r : Range)
deriving DecidableEq, Repr

/-- Apply one operation (a `remove` that throws yields `none`). -/
def applyOp (s : disjoint_range_tree) : Op → Option disjoint_range_tree
  | .add r => some (disjoint_range_tree.add_range r s)
  | .rem r => (disjoint_range_tree.remove r s).map (fun pr => pr.1)

/-- Apply a sequence of operations, left to right. -/
def applyOps : List Op → disjoint_range_tree → Option disjoint_range_tree
  | [], s => some s
  | op :: tl, s => match applyOp s op with
    | none => none
    | some s2 => applyOps tl s2

/-- The range argument of an operation was validly constructed (`low ≤ high`). -/
def OpValid : Op → Prop
  | .add r => r.low ≤ r.high
  | .rem r => r.low ≤ r.high

instance : DecidablePred OpValid := fun op =>
  match op with
  | .add r => inferInstanceAs (Decidable (r.low ≤ r.high))
  | .rem r => inferInstanceAs (Decidable (r.low ≤ r.high))

/-- Every operation's range argument was validly constructed. -/
def ValidOps (ops : List Op) : Prop :=
  ∀ op ∈ ops, OpValid op

instance (ops : List Op) : Decidable (ValidOps ops) :=
  List.decidableBAll OpValid ops

/-- The reference per-point model: a set of integers, updated one point at a
time (inserting / erasing every point of the operation's closed range). -/
def refSet : List Op → Finset Int → Finset Int
  | [], acc => acc
  | .add r :: tl, acc => refSet tl (acc ∪ Finset.Icc r.low r.high)
  | .rem r :: tl, acc => refSet tl (acc \ Finset.Icc r.low r.high)

open disjoint_range_tree

/-- Specification-side description of the split case of removal ("R strictly
contains X"): erase R, reinsert `(X.high+1, R.high)` exactly when
`R.high > X.high`, reinsert `(R.low, X.low-1)` exactly when `X.low > R.low`,
leaving every other stored range unchanged.  Transcribed from the
specification's words, to be compared against the behaviour of `remove`. -/
def specSplit (x : Range) (a b : Int) (l : List Entry) : List Entry :=
  if x.low > a then
    mapInsert a (x.low - 1)
      (if b > x.high then mapInsert (x.high + 1) b (eraseKey a l) else eraseKey a l)
  else
    if b > x.high then mapInsert (x.high + 1) b (eraseKey a l) else eraseKey a l

/-! ### Basic lemmas about `ptsF` and `Inv` -/

@[simp] lemma ptsF_nil : ptsF [] = ∅ := rfl

@[simp] lemma ptsF_cons (e : Entry) (tl : List Entry) :
    ptsF (e :: tl) = Finset.Icc e.1 e.2 ∪ ptsF tl := rfl

lemma ptsF_append (l1 l2 : List Entry) : ptsF (l1 ++ l2) = ptsF l1 ∪ ptsF l2 := by
  induction l1 with
  | nil => simp
  | cons e tl ih => simp [ih, Finset.union_assoc]

lemma mem_ptsF {v : Int} {l : List Entry} :
    v ∈ ptsF l ↔ ∃ e ∈ l, e.1 ≤ v ∧ v ≤ e.2 := by
  induction l with
  | nil => simp
  | cons e tl ih =>
    simp only [ptsF_cons, Finset.mem_union, Finset.mem_Icc, ih, List.mem_cons]
    constructor
    · rintro (h | ⟨f, hf, hle⟩)
      · exact ⟨e, Or.inl rfl, h⟩
      · exact ⟨f, Or.inr hf, hle⟩
    · rintro ⟨f, (rfl | hf), hle⟩
      · exact Or.inl hle
      · exact Or.inr ⟨f, hf, hle⟩

lemma Inv_nil : Inv [] := ⟨by simp, List.chain'_nil⟩

lemma Inv_cons_iff {e : Entry} {tl : List Entry} :
    Inv (e :: tl) ↔ e.1 ≤ e.2 ∧ Inv tl ∧ ∀ f ∈ tl.head?, EGap e f := by
  unfold Inv
  rw [List.chain'_cons']
  simp only [List.mem_cons, forall_eq_or_imp]
  tauto

lemma Inv_append_iff {l1 l2 : List Entry} :
    Inv (l1 ++ l2) ↔
      Inv l1 ∧ Inv l2 ∧ ∀ p ∈ l1.getLast?, ∀ q ∈ l2.head?, EGap p q := by
  unfold Inv
  rw [List.chain'_append]
  constructor
  · rintro ⟨hlh, h1, h2, h3⟩
    exact ⟨⟨fun e he => hlh e (List.mem_append_left _ he), h1⟩,
           ⟨fun e he => hlh e (List.mem_append_right _ he), h2⟩, h3⟩
  · rintro ⟨⟨ha, h1⟩, ⟨hb, h2⟩, h3⟩
    exact ⟨fun e he => (List.mem_append.mp he).elim (ha e) (hb e), h1, h2, h3⟩

/-- Every entry of the tail lies in gap order after the head. -/
lemma Inv_gap_head {e : Entry} {tl : List Entry} (h : Inv (e :: tl)) :
    ∀ f ∈ tl, e.2 + 1 < f.1 := by
  induction tl generalizing e with
  | nil => simp
  | cons g tl ih =>
    obtain ⟨he, hg, hgap⟩ := Inv_cons_iff.mp h
    intro f hf
    rcases List.mem_cons.mp hf with rfl | hf
    · exact hgap f rfl
    · have h1 : e.2 + 1 < g.1 := hgap g rfl
      have h2 : g.1 ≤ g.2 := (Inv_cons_iff.mp hg).1
      have h3 : g.2 + 1 < f.1 := ih hg f hf
      omega

/-- The pairwise form of the invariant: any two stored entries with `p.1 < q.1`
satisfy `p.2 + 1 < q.1`. -/
lemma Inv_pairwise {l : List Entry} (h : Inv l) :
    ∀ p ∈ l, ∀ q ∈ l, p.1 < q.1 → p.2 + 1 < q.1 := by
  induction l with
  | nil => simp
  | cons e tl ih =>
    have he : e.1 ≤ e.2 := (Inv_cons_iff.mp h).1
    have htl : Inv tl := (Inv_cons_iff.mp h).2.1
    have hgap := Inv_gap_head h
    intro p hp q hq hlt
    rcases List.mem_cons.mp hp with hpe | hp2
    · rcases List.mem_cons.mp hq with hqe | hq2
      · rw [hpe, hqe] at hlt; omega
      · rw [hpe]; exact hgap q hq2
    · rcases List.mem_cons.mp hq with hqe | hq2
      · have h1 := hgap p hp2
        rw [hqe] at hlt
        omega
      · exact ih htl p hp2 q hq2 hlt

lemma Inv_low_le_high {l : List Entry} (h : Inv l) : ∀ e ∈ l, e.1 ≤ e.2 := h.1

/-- Keys in the `takeWhile` part of the lower-bound split are below the bound. -/
lemma takeWhile_keys {l : List Entry} {k : Int} :
    ∀ e ∈ l.takeWhile (fun e => e.1 < k), e.1 < k := by
  intro e he
  have := List.mem_takeWhile_imp he
  simpa using this

/-- Under the invariant, keys in the `dropWhile` part are at or above the bound. -/
lemma dropWhile_keys {l : List Entry} {k : Int} (h : Inv l) :
    ∀ e ∈ l.dropWhile (fun e => e.1 < k), k ≤ e.1 := by
  induction l with
  | nil => simp
  | cons e tl ih =>
    by_cases hk : e.1 < k
    · rw [List.dropWhile_cons_of_pos (by simpa using hk)]
      exact ih (Inv_cons_iff.mp h).2.1
    · rw [List.dropWhile_cons_of_neg (by simpa using hk)]
      intro f hf
      rcases List.mem_cons.mp hf with rfl | hf
      · omega
      · have h1 : e.2 + 1 < f.1 := Inv_gap_head h f hf
        have h2 : e.1 ≤ e.2 := (Inv_cons_iff.mp h).1
        omega

lemma takeWhile_append_dropWhile_entries (l : List Entry) (k : Int) :
    l.takeWhile (fun e => e.1 < k) ++ l.dropWhile (fun e => e.1 < k) = l := by
  simp [List.takeWhile_append_dropWhile]

lemma getLast?_some_decomp {l : List Entry} {p : Entry} (h : l.getLast? = some p) :
    l = l.dropLast ++ [p] := by
  induction l with
  | nil => simp at h
  | cons e tl ih =>
    match tl, h with
    | [], h => simp at h; simp [h]
    | f :: tl2, h =>
      have h2 : (f :: tl2).getLast? = some p := by
        rw [← h]; rfl
      have := ih h2
      simp only [List.dropLast_cons₂, List.cons_append]
      exact congrArg (e :: ·) this

lemma head?_gap_of_forall {c : Entry} {l : List Entry}
    (h : ∀ e ∈ l, c.2 + 1 < e.1) : ∀ f ∈ l.head?, EGap c f :=
  fun f hf => h f (List.mem_of_mem_head? hf)

/-! ### Correctness of the insertion engine (`mergeScan`, `try_merge`, `add_range`) -/

/-- Specification of the forward merge scan.  `(k, h)` is the range being grown
(the scan origin), `rest` the successor entries.  The scan grows `h` to some
`h' ≥ h`, leaves an unabsorbed suffix in gap order after `h'`, and preserves the
covered points. -/
lemma mergeScan_spec {k : Int} : ∀ {h : Int} {rest : List Entry},
    Inv rest → (∀ e ∈ rest, k < e.1) → k ≤ h →
    h ≤ (mergeScan h rest).1 ∧
    Inv (mergeScan h rest).2 ∧
    (∀ e ∈ (mergeScan h rest).2, (mergeScan h rest).1 + 1 < e.1) ∧
    ptsF (mergeScan h rest).2 ∪ Finset.Icc k (mergeScan h rest).1 =
      ptsF rest ∪ Finset.Icc k h := by
  intro h rest
  induction rest generalizing h with
  | nil =>
    intro _ _ _
    simp [mergeScan, Inv_nil]
  | cons e tl ih =>
    intro hinv hks hkh
    obtain ⟨k0, v0⟩ := e
    have hlh : k0 ≤ v0 := (Inv_cons_iff.mp hinv).1
    have htl : Inv tl := (Inv_cons_iff.mp hinv).2.1
    have hk0 : k < k0 := hks (k0, v0) (List.mem_cons_self _ _)
    rw [mergeScan]
    split_ifs with hgap
    · -- true gap: the scan stops, returning the successors untouched
      refine ⟨le_refl _, hinv, ?_, rfl⟩
      intro f hf
      rcases List.mem_cons.mp hf with hfe | hf2
      · rw [hfe]; omega
      · have h1 := Inv_gap_head hinv f hf2
        omega
    · -- absorb: `high = max(high, i->second)` and continue
      have hadj : k0 ≤ h + 1 := by omega
      have hmax : k ≤ max h v0 := le_trans hkh (le_max_left _ _)
      obtain ⟨ih1, ih2, ih3, ih4⟩ :=
        ih htl (fun f hf => hks f (List.mem_cons_of_mem _ hf)) hmax
      refine ⟨le_trans (le_max_left _ _) ih1, ih2, ih3, ?_⟩
      rw [ih4, ptsF_cons]
      apply Finset.ext
      intro w
      simp only [Finset.mem_union, Finset.mem_Icc]
      by_cases hw : w ∈ ptsF tl
      · simp [hw]
      · simp only [hw, false_or, or_false]
        omega

/-- Unfolding of `try_merge` when the entry is at the beginning of the map. -/
lemma try_merge_nil (cur : Entry) (after : List Entry) :
    try_merge [] cur after =
      (cur.1, (mergeScan cur.2 after).1) :: (mergeScan cur.2 after).2 := rfl

/-- Unfolding of `try_merge` when a previous entry `p` exists. -/
lemma try_merge_concat (u : List Entry) (p cur : Entry) (after : List Entry) :
    try_merge (u ++ [p]) cur after =
      if p.2 ≥ cur.1 ∨ p.2 + 1 = cur.1 then
        u ++ (p.1, (mergeScan p.2 (cur :: after)).1) ::
          (mergeScan p.2 (cur :: after)).2
      else
        (u ++ [p]) ++ (cur.1, (mergeScan cur.2 after).1) ::
          (mergeScan cur.2 after).2 := by
  rw [try_merge, List.getLast?_concat]
  simp only [List.dropLast_concat]

/-- Specification of `try_merge`: given the entries before and after the
inserted/extended entry `cur`, the result satisfies the invariant and covers
exactly the old points plus `cur`'s points. -/
lemma try_merge_spec {before after : List Entry} {cur : Entry}
    (hb : Inv before) (ha : Inv after)
    (hkb : ∀ e ∈ before, e.1 < cur.1) (hka : ∀ e ∈ after, cur.1 < e.1)
    (hc : cur.1 ≤ cur.2) :
    Inv (try_merge before cur after) ∧
    ptsF (try_merge before cur after) =
      ptsF before ∪ Finset.Icc cur.1 cur.2 ∪ ptsF after := by
  cases hlast : before.getLast? with
  | none =>
    -- it == begin: scan forward from cur itself
    have hbe : before = [] := by
      cases hb2 : before with
      | nil => rfl
      | cons e tl =>
        rw [hb2, List.getLast?_eq_getLast _ (by simp)] at hlast
        simp at hlast
    subst hbe
    rw [try_merge_nil]
    obtain ⟨s1, s2, s3, s4⟩ := mergeScan_spec (k := cur.1) ha hka hc
    refine ⟨?_, ?_⟩
    · rw [Inv_cons_iff]
      exact ⟨le_trans hc s1, s2, head?_gap_of_forall s3⟩
    · rw [ptsF_cons]
      apply Finset.ext
      intro w
      have hs4 := Finset.ext_iff.mp s4 w
      simp only [Finset.mem_union, Finset.mem_Icc, ptsF_nil,
        Finset.not_mem_empty] at hs4 ⊢
      tauto
  | some p =>
    obtain ⟨u, rfl⟩ : ∃ u, before = u ++ [p] :=
      ⟨before.dropLast, getLast?_some_decomp hlast⟩
    have hpmem : p ∈ u ++ [p] := by simp
    have hp12 : p.1 ≤ p.2 := hb.1 p hpmem
    have hpk : p.1 < cur.1 := hkb p hpmem
    obtain ⟨hu, -, hugap⟩ := Inv_append_iff.mp hb
    rw [try_merge_concat]
    split_ifs with hprev
    · -- the previous entry touches or overlaps cur: scan starts from prev
      have hstep :
          mergeScan p.2 (cur :: after) = mergeScan (max p.2 cur.2) after := by
        obtain ⟨c1, c2⟩ := cur
        rw [mergeScan]
        have hng : ¬(c1 > p.2 ∧ c1 - p.2 > 1) := by
          simp only [ge_iff_le] at hprev
          omega
        simp only [hng, if_false]
      rw [hstep]
      have hks2 : ∀ e ∈ after, p.1 < e.1 := fun e he => lt_trans hpk (hka e he)
      have hkh2 : p.1 ≤ max p.2 cur.2 := le_trans hp12 (le_max_left _ _)
      obtain ⟨s1, s2, s3, s4⟩ := mergeScan_spec (k := p.1) ha hks2 hkh2
      constructor
      · rw [Inv_append_iff]
        refine ⟨hu, ?_, ?_⟩
        · rw [Inv_cons_iff]
          refine ⟨le_trans hp12 (le_trans (le_max_left _ _) s1), s2,
            head?_gap_of_forall s3⟩
        · intro q hq f hf
          simp only [List.head?_cons, Option.mem_def, Option.some.injEq] at hf
          have := hugap q hq p (by simp)
          rw [← hf]
          exact this
      · rw [ptsF_append, ptsF_cons, ptsF_append]
        apply Finset.ext
        intro w
        have hs4 := Finset.ext_iff.mp s4 w
        simp only [ge_iff_le] at hprev
        simp only [Finset.mem_union, Finset.mem_Icc, ptsF_cons, ptsF_nil,
          Finset.not_mem_empty, or_false] at hs4 ⊢
        by_cases hw1 : w ∈ ptsF u <;> by_cases hw2 : w ∈ ptsF after <;>
          by_cases hw3 : w ∈ ptsF (mergeScan (max p.2 cur.2) after).2 <;>
          simp only [hw1, hw2, hw3, true_or, or_true, false_or, or_false,
            iff_true, true_iff, true_and] at hs4 ⊢ <;> omega
    · -- no merge with the previous entry: scan forward from cur
      have hpgap : p.2 + 1 < cur.1 := by
        simp only [ge_iff_le, not_or] at hprev
        omega
      obtain ⟨s1, s2, s3, s4⟩ := mergeScan_spec (k := cur.1) ha hka hc
      constructor
      · rw [List.append_assoc, Inv_append_iff]
        refine ⟨hu, ?_, ?_⟩
        · rw [List.singleton_append, Inv_cons_iff]
          refine ⟨hp12, ?_, ?_⟩
          · rw [Inv_cons_iff]
            exact ⟨le_trans hc s1, s2, head?_gap_of_forall s3⟩
          · intro f hf
            simp only [List.head?_cons, Option.mem_def, Option.some.injEq] at hf
            rw [← hf]
            exact hpgap
        · intro q hq f hf
          simp only [List.singleton_append, List.head?_cons, Option.mem_def,
            Option.some.injEq] at hf
          have := hugap q hq p (by simp)
          rw [← hf]
          exact this
      · rw [ptsF_append, ptsF_cons, ptsF_append]
        apply Finset.ext
        intro w
        have hs4 := Finset.ext_iff.mp s4 w
        simp only [Finset.mem_union, Finset.mem_Icc, ptsF_cons, ptsF_nil,
          Finset.not_mem_empty, or_false] at hs4 ⊢
        by_cases hw1 : w ∈ ptsF u <;> by_cases hw2 : w ∈ ptsF after <;>
          by_cases hw3 : w ∈ ptsF (mergeScan cur.2 after).2 <;>
          simp only [hw1, hw2, hw3, true_or, or_true, false_or, or_false,
            iff_true, true_iff, true_and] at hs4 ⊢ <;> omega

/-- Unfolding of `add_range` when the lower bound is the end of the map. -/
lemma add_range_eq_nil {r : Range} {s : disjoint_range_tree}
    (hb : s.m_ranges.dropWhile (fun e => e.1 < r.low) = []) :
    add_range r s =
      { m_ranges := try_merge (s.m_ranges.takeWhile (fun e => e.1 < r.low))
          (r.low, r.high) [], m_range_size := none } := by
  rw [add_range, hb]

/-- Unfolding of `add_range` when the lower bound finds an entry. -/
lemma add_range_eq_cons {r : Range} {s : disjoint_range_tree} {k v : Int}
    {tl : List Entry}
    (hb : s.m_ranges.dropWhile (fun e => e.1 < r.low) = (k, v) :: tl) :
    add_range r s =
      (if k ≠ r.low then
        { m_ranges := try_merge (s.m_ranges.takeWhile (fun e => e.1 < r.low))
            (r.low, r.high) ((k, v) :: tl), m_range_size := none }
      else if v ≥ r.high then s
      else
        { m_ranges := try_merge (s.m_ranges.takeWhile (fun e => e.1 < r.low))
            (r.low, r.high) tl, m_range_size := none }) := by
  rw [add_range, hb]

/-- Main specification of `add_range`: it preserves the invariant, its result
covers exactly the old points plus the inserted range's points, and it either
clears the cached size or (on the no-op path) leaves the tree untouched. -/
lemma add_range_spec {s : disjoint_range_tree} {r : Range}
    (hinv : Inv s.m_ranges) (hr : r.low ≤ r.high) :
    Inv (add_range r s).m_ranges ∧
    ptsF (add_range r s).m_ranges = ptsF s.m_ranges ∪ Finset.Icc r.low r.high ∧
    ((add_range r s).m_range_size = none ∨ add_range r s = s) := by
  have hsplit := takeWhile_append_dropWhile_entries s.m_ranges r.low
  have htake := takeWhile_keys (l := s.m_ranges) (k := r.low)
  have hdropk := dropWhile_keys (l := s.m_ranges) (k := r.low) hinv
  have hib : Inv (s.m_ranges.takeWhile (fun e => e.1 < r.low) ++
      s.m_ranges.dropWhile (fun e => e.1 < r.low)) := by
    rw [hsplit]; exact hinv
  have hpts : ptsF s.m_ranges =
      ptsF (s.m_ranges.takeWhile (fun e => e.1 < r.low)) ∪
      ptsF (s.m_ranges.dropWhile (fun e => e.1 < r.low)) := by
    rw [← ptsF_append, hsplit]
  obtain ⟨hInvA, hInvB, hGapAB⟩ := Inv_append_iff.mp hib
  cases hb : s.m_ranges.dropWhile (fun e => e.1 < r.low) with
  | nil =>
    rw [hb] at hpts
    rw [add_range_eq_nil hb]
    obtain ⟨t1, t2⟩ :=
      @try_merge_spec _ _ (r.low, r.high) hInvA Inv_nil htake (by simp) hr
    refine ⟨t1, ?_, Or.inl rfl⟩
    rw [t2, hpts]
    simp
  | cons e tl =>
    obtain ⟨k, v⟩ := e
    rw [hb] at hInvB hdropk hpts
    have hk_ge : r.low ≤ k := hdropk (k, v) (List.mem_cons_self _ _)
    have hkv : k ≤ v := (Inv_cons_iff.mp hInvB).1
    have hInvTl : Inv tl := (Inv_cons_iff.mp hInvB).2.1
    have hGapTl := Inv_gap_head hInvB
    rw [add_range_eq_cons hb]
    split_ifs with hne hcov
    · -- no key collision: insert a new entry at r.low
      have hka : ∀ f ∈ (k, v) :: tl, r.low < f.1 := by
        intro f hf
        rcases List.mem_cons.mp hf with hfe | hf2
        · have hfk : f.1 = k := by rw [hfe]
          omega
        · have := hGapTl f hf2
          omega
      obtain ⟨t1, t2⟩ :=
        @try_merge_spec _ _ (r.low, r.high) hInvA hInvB htake hka hr
      refine ⟨t1, ?_, Or.inl rfl⟩
      rw [t2, hpts]
      apply Finset.ext
      intro w
      simp only [Finset.mem_union]
      tauto
    · -- key collision, existing entry already covers r: no-op, early return
      refine ⟨hinv, ?_, Or.inr rfl⟩
      have hkeq : k = r.low := by omega
      have hmem : (k, v) ∈ s.m_ranges := by
        rw [← hsplit]
        apply List.mem_append_right
        rw [hb]
        exact List.mem_cons_self _ _
      refine (Finset.union_eq_left.mpr ?_).symm
      intro w hw
      rw [Finset.mem_Icc] at hw
      exact mem_ptsF.mpr ⟨(k, v), hmem, by omega⟩
    · -- key collision, extend the entry's high to r.high
      have hkeq : k = r.low := by omega
      have hka : ∀ f ∈ tl, r.low < f.1 := by
        intro f hf
        have := hGapTl f hf
        omega
      obtain ⟨t1, t2⟩ :=
        @try_merge_spec _ _ (r.low, r.high) hInvA hInvTl htake hka hr
      refine ⟨t1, ?_, Or.inl rfl⟩
      rw [t2, hpts, ptsF_cons]
      apply Finset.ext
      intro w
      simp only [Finset.mem_union, Finset.mem_Icc]
      by_cases hw1 : w ∈ ptsF (s.m_ranges.takeWhile (fun e => e.1 < r.low)) <;>
        by_cases hw2 : w ∈ ptsF tl <;>
        simp only [hw1, hw2, true_or, or_true, false_or, or_false,
          iff_true, true_iff, true_and] <;> omega

/-! ### Correctness of the removal engine -/

/-- `std::map::insert` at the sorted position between a lower and an upper part. -/
lemma mapInsert_position {u w : List Entry} {k v : Int}
    (hu : ∀ e ∈ u, e.1 < k) (hw : ∀ e ∈ w, k < e.1) :
    mapInsert k v (u ++ w) = u ++ (k, v) :: w := by
  induction u with
  | nil =>
    cases w with
    | nil => rfl
    | cons f w2 =>
      have hf : k < f.1 := hw f (List.mem_cons_self _ _)
      simp only [List.nil_append, mapInsert]
      rw [if_pos hf]
  | cons e u2 ih =>
    have he : e.1 < k := hu e (List.mem_cons_self _ _)
    simp only [List.cons_append, mapInsert, List.append_eq]
    rw [if_neg (by omega), if_neg (by omega),
      ih (fun f hf => hu f (List.mem_cons_of_mem _ hf))]

/-- `std::map::erase(key)` removes exactly the entry with that key when the
preceding entries have different keys. -/
lemma eraseKey_append_cons {u w : List Entry} {k v : Int}
    (hu : ∀ e ∈ u, e.1 ≠ k) :
    eraseKey k (u ++ (k, v) :: w) = u ++ w := by
  induction u with
  | nil => simp [eraseKey]
  | cons e u2 ih =>
    have he : e.1 ≠ k := hu e (List.mem_cons_self _ _)
    simp only [List.cons_append, eraseKey, List.append_eq]
    rw [if_neg he, ih (fun f hf => hu f (List.mem_cons_of_mem _ hf))]

/-- Every entry before a given entry of an invariant list is in gap order
before it. -/
lemma Inv_before_cons {u : List Entry} {c : Entry} {w : List Entry}
    (h : Inv (u ++ c :: w)) : ∀ e ∈ u, e.2 + 1 < c.1 := by
  induction u with
  | nil => simp
  | cons e u2 ih =>
    intro f hf
    rcases List.mem_cons.mp hf with hfe | hf2
    · have := Inv_gap_head h c (by simp)
      rw [hfe]
      exact this
    · exact ih (Inv_cons_iff.mp h).2.1 f hf2

/-- Pointwise bound for a list of entries whose highs are below a threshold. -/
lemma ptsF_lt_of_highs {l : List Entry} {t : Int} (h : ∀ e ∈ l, e.2 < t) :
    ∀ w ∈ ptsF l, w < t := by
  intro w hw
  obtain ⟨e, he, h1, h2⟩ := mem_ptsF.mp hw
  have := h e he
  omega

/-- Pointwise bound for a list of entries whose lows are above a threshold. -/
lemma ptsF_gt_of_lows {l : List Entry} {t : Int} (h : ∀ e ∈ l, t < e.1) :
    ∀ w ∈ ptsF l, t < w := by
  intro w hw
  obtain ⟨e, he, h1, h2⟩ := mem_ptsF.mp hw
  have := h e he
  omega

/-- Pointwise bounds for the collected pending run (all inside `x`). -/
lemma ptsF_pending_bounds {l : List Entry} {x : Range}
    (h : ∀ e ∈ l, x.low ≤ e.1 ∧ e.2 ≤ x.high) :
    ∀ w ∈ ptsF l, x.low ≤ w ∧ w ≤ x.high := by
  intro w hw
  obtain ⟨e, he, h1, h2⟩ := mem_ptsF.mp hw
  have := h e he
  omega

/-- The fuel that `removeLoop` still needs: the truncate-low branch does not
shorten the scan list, but it lowers the head's value below `x.low`. -/
def loopFuel (x : Range) : List Entry → Nat
  | [] => 0
  | (_, v) :: _ => if x.low ≤ v then 1 else 0

/-- Main loop invariant of the removal scan.  `kept` are entries strictly below
`x` already passed over, `pending` the collected run of entries inside `x`,
`rest` the entries not yet visited; the current map is their concatenation.
Given enough fuel, the loop terminates normally (no `std::logic_error`), its
result satisfies the invariant, covers exactly the old points minus `x`'s
points, and reports `true` exactly when a point was (or will be) removed. -/
lemma removeLoop_spec {x : Range} (hx : x.low ≤ x.high) :
    ∀ fuel (kept pending rest : List Entry) (removed : Bool),
    2 * rest.length + loopFuel x rest < fuel →
    Inv (kept ++ pending ++ rest) →
    (∀ e ∈ kept, e.2 < x.low) →
    (∀ e ∈ pending, x.low ≤ e.1 ∧ e.2 ≤ x.high) →
    ∃ out, removeLoop x fuel kept pending rest removed = some out ∧
      Inv out.1 ∧
      ptsF out.1 = ptsF (kept ++ pending ++ rest) \ Finset.Icc x.low x.high ∧
      (out.2 = true ↔ (removed = true ∨ pending ≠ [] ∨
        ∃ w ∈ ptsF rest, x.low ≤ w ∧ w ≤ x.high)) := by
  intro fuel
  induction fuel with
  | zero =>
    intro kept pending rest removed hfuel
    exact absurd hfuel (Nat.not_lt_zero _)
  | succ fuel ih =>
    intro kept pending rest removed hfuel hInv hkept hpend
    cases rest with
    | nil =>
      refine ⟨(kept, removed || !pending.isEmpty), rfl, ?_, ?_, ?_⟩
      · rw [List.append_nil] at hInv
        exact (Inv_append_iff.mp hInv).1
      · rw [List.append_nil] at hInv ⊢
        rw [ptsF_append]
        have hkw := ptsF_lt_of_highs hkept
        have hpw := ptsF_pending_bounds hpend
        apply Finset.ext
        intro w
        simp only [Finset.mem_sdiff, Finset.mem_union, Finset.mem_Icc, ptsF_nil,
          Finset.not_mem_empty, or_false]
        constructor
        · intro hw
          have := hkw w hw
          exact ⟨Or.inl hw, by omega⟩
        · rintro ⟨hw | hw, hni⟩
          · exact hw
          · have := hpw w hw
            omega
      · cases pending with
        | nil => simp
        | cons p pl => simp
    | cons e tl =>
      obtain ⟨k, v⟩ := e
      -- structural facts about the current map
      -- (`++` is left-associative: the map is (kept ++ pending) ++ rest)
      obtain ⟨hInvKP, hInvR, hGapKPR⟩ := Inv_append_iff.mp hInv
      obtain ⟨hInvK, hInvP, hGapKP⟩ := Inv_append_iff.mp hInvKP
      have hkv : k ≤ v := (Inv_cons_iff.mp hInvR).1
      have hInvTl : Inv tl := (Inv_cons_iff.mp hInvR).2.1
      have hGapTl : ∀ f ∈ tl, v + 1 < f.1 := Inv_gap_head hInvR
      have hkpk : ∀ e ∈ kept ++ pending, e.2 + 1 < k := Inv_before_cons hInv
      have hpk : ∀ e ∈ pending, e.2 + 1 < k := fun e he =>
        hkpk e (List.mem_append_right _ he)
      have hkeptk : ∀ e ∈ kept, e.2 + 1 < k := fun e he =>
        hkpk e (List.mem_append_left _ he)
      simp only [removeLoop]
      by_cases hc1 : Range.equals ⟨k, v⟩ x
      · -- r equals x: erase r, return true
        rw [if_pos hc1]
        obtain ⟨hc1a, hc1b⟩ : k = x.low ∧ v = x.high := hc1
        have hpnil : pending = [] := by
          rcases pending with - | ⟨p, pl⟩
          · rfl
          · have h1 := hpend p (List.mem_cons_self _ _)
            have h2 := hpk p (List.mem_cons_self _ _)
            have h3 := hInvP.1 p (List.mem_cons_self _ _)
            omega
        subst hpnil
        have herase : eraseKey k (kept ++ [] ++ (k, v) :: tl) = kept ++ tl := by
          simp only [List.append_nil]
          exact eraseKey_append_cons (fun e he => by
            have h1 := hkeptk e he
            have h2 := hInvK.1 e he
            omega)
        refine ⟨(kept ++ tl, true), by rw [herase], ?_, ?_, ?_⟩
        · show Inv (kept ++ tl)
          rw [Inv_append_iff]
          refine ⟨hInvK, hInvTl, ?_⟩
          intro p hp q hq
          have hp2 := List.mem_of_mem_getLast? hp
          have hq2 := List.mem_of_mem_head? hq
          have h1 := hkeptk p hp2
          have h2 := hGapTl q hq2
          simp only [EGap]
          omega
        · show ptsF (kept ++ tl) =
            ptsF (kept ++ [] ++ (k, v) :: tl) \ Finset.Icc x.low x.high
          simp only [List.append_nil, ptsF_append, ptsF_cons]
          apply Finset.ext
          intro w
          have hq1 := fun hh => ptsF_lt_of_highs hkept w hh
          have hq2 := fun hh => ptsF_gt_of_lows (t := v)
            (fun f hf => by have := hGapTl f hf; omega) w hh
          simp only [Finset.mem_sdiff, Finset.mem_union, Finset.mem_Icc]
          by_cases hw1 : w ∈ ptsF kept <;> by_cases hw2 : w ∈ ptsF tl <;>
            simp only [hw1, hw2, true_or, or_true, false_or, or_false, iff_true,
              true_iff, iff_false, false_iff, true_and, and_true, true_implies,
              false_implies] at hq1 hq2 ⊢ <;>
            omega
        · constructor
          · intro h2
            refine Or.inr (Or.inr ⟨x.low, ?_, le_refl _, hx⟩)
            simp only [ptsF_cons, Finset.mem_union, Finset.mem_Icc]
            exact Or.inl (by omega)
          · intro h2
            rfl
      · rw [if_neg hc1]
        by_cases hc2 : Range.contains ⟨k, v⟩ x
        · -- r contains x: erase r, re-insert the outer piece(s), return true
          rw [if_pos hc2]
          obtain ⟨hc2a, hc2b⟩ : x.low ≥ k ∧ x.high ≤ v := hc2
          have hc1' : ¬(k = x.low ∧ v = x.high) := fun h => hc1 ⟨h.1, h.2⟩
          have hpnil : pending = [] := by
            rcases pending with - | ⟨p, pl⟩
            · rfl
            · have h1 := hpend p (List.mem_cons_self _ _)
              have h2 := hpk p (List.mem_cons_self _ _)
              have h3 := hInvP.1 p (List.mem_cons_self _ _)
              omega
          subst hpnil
          have herase : eraseKey k (kept ++ [] ++ (k, v) :: tl) = kept ++ tl := by
            simp only [List.append_nil]
            exact eraseKey_append_cons (fun e he => by
              have h1 := hkeptk e he
              have h2 := hInvK.1 e he
              omega)
          rw [herase]
          have hkeptlt : ∀ e ∈ kept, e.1 < x.high + 1 := fun e he => by
            have h1 := hkeptk e he
            have h2 := hInvK.1 e he
            omega
          have htlgt : ∀ f ∈ tl, x.high + 1 < f.1 := fun f hf => by
            have := hGapTl f hf
            omega
          have hkeptltk : ∀ e ∈ kept, e.1 < k := fun e he => by
            have h1 := hkeptk e he
            have h2 := hInvK.1 e he
            omega
          by_cases hs1 : v > x.high <;> by_cases hs2 : x.low > k
          · -- both pieces reinserted
            rw [if_pos hs1, if_pos hs2, mapInsert_position hkeptlt htlgt,
              mapInsert_position hkeptltk (by
                intro f hf
                rcases List.mem_cons.mp hf with hfe | hf2
                · have : f.1 = x.high + 1 := by rw [hfe]
                  omega
                · have := htlgt f hf2
                  omega)]
            refine ⟨(kept ++ (k, x.low - 1) :: (x.high + 1, v) :: tl, true),
              rfl, ?_, ?_, ?_⟩
            · show Inv (kept ++ (k, x.low - 1) :: (x.high + 1, v) :: tl)
              rw [Inv_append_iff]
              refine ⟨hInvK, ?_, ?_⟩
              · rw [Inv_cons_iff]
                refine ⟨by omega, ?_, ?_⟩
                · rw [Inv_cons_iff]
                  exact ⟨by omega, hInvTl, head?_gap_of_forall hGapTl⟩
                · intro f hf
                  simp only [List.head?_cons, Option.mem_def,
                    Option.some.injEq] at hf
                  rw [← hf]
                  simp only [EGap]
                  omega
              · intro p hp q hq
                have hp2 := List.mem_of_mem_getLast? hp
                simp only [List.head?_cons, Option.mem_def, Option.some.injEq] at hq
                have h1 := hkeptk p hp2
                rw [← hq]
                simp only [EGap]
                omega
            · show ptsF (kept ++ (k, x.low - 1) :: (x.high + 1, v) :: tl) =
                ptsF (kept ++ [] ++ (k, v) :: tl) \ Finset.Icc x.low x.high
              simp only [List.append_nil, ptsF_append, ptsF_cons]
              apply Finset.ext
              intro w
              have hq1 := fun hh => ptsF_lt_of_highs hkept w hh
              have hq2 := fun hh => ptsF_gt_of_lows (t := v)
                (fun f hf => by have := hGapTl f hf; omega) w hh
              simp only [Finset.mem_sdiff, Finset.mem_union, Finset.mem_Icc]
              by_cases hw1 : w ∈ ptsF kept <;> by_cases hw2 : w ∈ ptsF tl <;>
                simp only [hw1, hw2, true_or, or_true, false_or, or_false,
                  iff_true, true_iff, iff_false, false_iff, true_and, and_true,
                  true_implies, false_implies] at hq1 hq2 ⊢ <;>
                omega
            · constructor
              · intro h2
                refine Or.inr (Or.inr ⟨x.low, ?_, le_refl _, hx⟩)
                simp only [ptsF_cons, Finset.mem_union, Finset.mem_Icc]
                exact Or.inl (by omega)
              · intro h2
                rfl
          · -- only the high piece reinserted (here k = x.low)
            rw [if_pos hs1, if_neg hs2, mapInsert_position hkeptlt htlgt]
            refine ⟨(kept ++ (x.high + 1, v) :: tl, true), rfl, ?_, ?_, ?_⟩
            · show Inv (kept ++ (x.high + 1, v) :: tl)
              rw [Inv_append_iff]
              refine ⟨hInvK, ?_, ?_⟩
              · rw [Inv_cons_iff]
                exact ⟨by omega, hInvTl, head?_gap_of_forall hGapTl⟩
              · intro p hp q hq
                have hp2 := List.mem_of_mem_getLast? hp
                simp only [List.head?_cons, Option.mem_def, Option.some.injEq] at hq
                have h1 := hkeptk p hp2
                have h2 := hInvK.1 p hp2
                rw [← hq]
                simp only [EGap]
                omega
            · show ptsF (kept ++ (x.high + 1, v) :: tl) =
                ptsF (kept ++ [] ++ (k, v) :: tl) \ Finset.Icc x.low x.high
              simp only [List.append_nil, ptsF_append, ptsF_cons]
              apply Finset.ext
              intro w
              have hq1 := fun hh => ptsF_lt_of_highs hkept w hh
              have hq2 := fun hh => ptsF_gt_of_lows (t := v)
                (fun f hf => by have := hGapTl f hf; omega) w hh
              simp only [Finset.mem_sdiff, Finset.mem_union, Finset.mem_Icc]
              by_cases hw1 : w ∈ ptsF kept <;> by_cases hw2 : w ∈ ptsF tl <;>
                simp only [hw1, hw2, true_or, or_true, false_or, or_false,
                  iff_true, true_iff, iff_false, false_iff, true_and, and_true,
                  true_implies, false_implies] at hq1 hq2 ⊢ <;>
                omega
            · constructor
              · intro h2
                refine Or.inr (Or.inr ⟨x.low, ?_, le_refl _, hx⟩)
                simp only [ptsF_cons, Finset.mem_union, Finset.mem_Icc]
                exact Or.inl (by omega)
              · intro h2
                rfl
          · -- only the low piece reinserted (here v = x.high)
            rw [if_neg hs1, if_pos hs2,
              mapInsert_position hkeptltk (fun f hf => by
                have := hGapTl f hf
                omega)]
            refine ⟨(kept ++ (k, x.low - 1) :: tl, true), rfl, ?_, ?_, ?_⟩
            · show Inv (kept ++ (k, x.low - 1) :: tl)
              rw [Inv_append_iff]
              refine ⟨hInvK, ?_, ?_⟩
              · rw [Inv_cons_iff]
                refine ⟨by omega, hInvTl, ?_⟩
                intro f hf
                have hf2 := List.mem_of_mem_head? hf
                have := hGapTl f hf2
                simp only [EGap]
                omega
              · intro p hp q hq
                have hp2 := List.mem_of_mem_getLast? hp
                simp only [List.head?_cons, Option.mem_def, Option.some.injEq] at hq
                have h1 := hkeptk p hp2
                rw [← hq]
                simp only [EGap]
                omega
            · show ptsF (kept ++ (k, x.low - 1) :: tl) =
                ptsF (kept ++ [] ++ (k, v) :: tl) \ Finset.Icc x.low x.high
              simp only [List.append_nil, ptsF_append, ptsF_cons]
              apply Finset.ext
              intro w
              have hq1 := fun hh => ptsF_lt_of_highs hkept w hh
              have hq2 := fun hh => ptsF_gt_of_lows (t := v)
                (fun f hf => by have := hGapTl f hf; omega) w hh
              simp only [Finset.mem_sdiff, Finset.mem_union, Finset.mem_Icc]
              by_cases hw1 : w ∈ ptsF kept <;> by_cases hw2 : w ∈ ptsF tl <;>
                simp only [hw1, hw2, true_or, or_true, false_or, or_false,
                  iff_true, true_iff, iff_false, false_iff, true_and, and_true,
                  true_implies, false_implies] at hq1 hq2 ⊢ <;>
                omega
            · constructor
              · intro h2
                refine Or.inr (Or.inr ⟨x.low, ?_, le_refl _, hx⟩)
                simp only [ptsF_cons, Finset.mem_union, Finset.mem_Icc]
                exact Or.inl (by omega)
              · intro h2
                rfl
          · -- no piece reinserted: impossible, r would equal x
            exfalso
            exact hc1' (by omega)
        · rw [if_neg hc2]
          by_cases hc3 : Range.contains x ⟨k, v⟩
          · -- x contains r: collect r for the bulk erase and continue
            rw [if_pos hc3]
            obtain ⟨hc3a, hc3b⟩ : k ≥ x.low ∧ v ≤ x.high := hc3
            have hliste : kept ++ (pending ++ [(k, v)]) ++ tl =
                kept ++ pending ++ (k, v) :: tl := by
              simp
            have hInv2 : Inv (kept ++ (pending ++ [(k, v)]) ++ tl) := by
              rw [hliste]
              exact hInv
            have hfuel2 : 2 * tl.length + loopFuel x tl < fuel := by
              have h1 : loopFuel x tl ≤ 1 := by
                cases tl with
                | nil => simp [loopFuel]
                | cons a b =>
                  obtain ⟨a1, a2⟩ := a
                  simp only [loopFuel]
                  split_ifs <;> omega
              simp only [List.length_cons] at hfuel
              omega
            have hpend2 : ∀ e ∈ pending ++ [(k, v)],
                x.low ≤ e.1 ∧ e.2 ≤ x.high := by
              intro e he
              rcases List.mem_append.mp he with he2 | he2
              · exact hpend e he2
              · simp only [List.mem_singleton] at he2
                rw [he2]
                exact ⟨hc3a, hc3b⟩
            obtain ⟨out, ho1, ho2, ho3, ho4⟩ :=
              ih kept (pending ++ [(k, v)]) tl removed hfuel2 hInv2 hkept hpend2
            refine ⟨out, ho1, ho2, ?_, ?_⟩
            · rw [ho3, hliste]
            · rw [ho4]
              constructor
              · intro h
                refine Or.inr (Or.inr ⟨k, ?_, by omega, by omega⟩)
                simp only [ptsF_cons, Finset.mem_union, Finset.mem_Icc]
                exact Or.inl (by omega)
              · intro h
                exact Or.inr (Or.inl (by simp))
          · rw [if_neg hc3]
            by_cases hc4 : x.high < k
            · -- gap after x: stop scanning, bulk-erase the collected run
              rw [if_pos hc4]
              have hno : ∀ w ∈ ptsF ((k, v) :: tl), ¬(x.low ≤ w ∧ w ≤ x.high) := by
                intro w hw
                simp only [ptsF_cons, Finset.mem_union, Finset.mem_Icc] at hw
                rcases hw with hw | hw
                · omega
                · have := ptsF_gt_of_lows (t := v)
                    (fun f hf => by have := hGapTl f hf; omega) w hw
                  omega
              refine ⟨(kept ++ (k, v) :: tl, removed || !pending.isEmpty),
                rfl, ?_, ?_, ?_⟩
              · show Inv (kept ++ (k, v) :: tl)
                rw [Inv_append_iff]
                refine ⟨hInvK, hInvR, ?_⟩
                intro p hp q hq
                have hp2 := List.mem_of_mem_getLast? hp
                simp only [List.head?_cons, Option.mem_def, Option.some.injEq] at hq
                have h1 := hkeptk p hp2
                rw [← hq]
                simp only [EGap]
                omega
              · show ptsF (kept ++ (k, v) :: tl) =
                  ptsF (kept ++ pending ++ (k, v) :: tl) \ Finset.Icc x.low x.high
                simp only [ptsF_append, ptsF_cons]
                apply Finset.ext
                intro w
                have hq1 := fun hh => ptsF_lt_of_highs hkept w hh
                have hq2 := fun hh => ptsF_gt_of_lows (t := v)
                  (fun f hf => by have := hGapTl f hf; omega) w hh
                have hq3 := fun hh => ptsF_pending_bounds hpend w hh
                simp only [Finset.mem_sdiff, Finset.mem_union, Finset.mem_Icc]
                by_cases hw1 : w ∈ ptsF kept <;> by_cases hw2 : w ∈ ptsF tl <;>
                  by_cases hw3 : w ∈ ptsF pending <;>
                  simp only [hw1, hw2, hw3, true_or, or_true, false_or, or_false,
                    iff_true, true_iff, iff_false, false_iff, true_and, and_true,
                    true_implies, false_implies] at hq1 hq2 hq3 ⊢ <;>
                  omega
              · show (removed || !pending.isEmpty) = true ↔ _
                rcases pending with - | ⟨p, pl⟩ <;> cases removed
                · refine iff_of_false (by simp) ?_
                  rintro (h | h | ⟨w, hw, hb1, hb2⟩)
                  · simp at h
                  · exact h rfl
                  · exact hno w hw ⟨hb1, hb2⟩
                · exact iff_of_true (by simp) (Or.inl rfl)
                · exact iff_of_true (by simp) (Or.inr (Or.inl (by simp)))
                · exact iff_of_true (by simp) (Or.inl rfl)
            · rw [if_neg hc4]
              by_cases hc5 : x.low > v
              · -- r entirely below x: skip it, reset erase_start
                rw [if_pos hc5]
                have hpnil : pending = [] := by
                  rcases pending with - | ⟨p, pl⟩
                  · rfl
                  · have h1 := hpend p (List.mem_cons_self _ _)
                    have h2 := hpk p (List.mem_cons_self _ _)
                    have h3 := hInvP.1 p (List.mem_cons_self _ _)
                    omega
                subst hpnil
                have hliste : (kept ++ [] ++ [(k, v)]) ++ [] ++ tl =
                    kept ++ [] ++ (k, v) :: tl := by
                  simp
                have hInv2 : Inv ((kept ++ [] ++ [(k, v)]) ++ [] ++ tl) := by
                  rw [hliste]
                  exact hInv
                have hfuel2 : 2 * tl.length + loopFuel x tl < fuel := by
                  have h1 : loopFuel x tl ≤ 1 := by
                    cases tl with
                    | nil => simp [loopFuel]
                    | cons a b =>
                      obtain ⟨a1, a2⟩ := a
                      simp only [loopFuel]
                      split_ifs <;> omega
                  simp only [List.length_cons] at hfuel
                  omega
                have hkept2 : ∀ e ∈ kept ++ [] ++ [(k, v)], e.2 < x.low := by
                  intro e he
                  simp only [List.append_nil, List.mem_append,
                    List.mem_singleton] at he
                  rcases he with he2 | he2
                  · exact hkept e he2
                  · rw [he2]
                    omega
                obtain ⟨out, ho1, ho2, ho3, ho4⟩ :=
                  ih (kept ++ [] ++ [(k, v)]) [] tl removed hfuel2 hInv2 hkept2
                    (by simp)
                refine ⟨out, ho1, ho2, ?_, ?_⟩
                · rw [ho3, hliste]
                · rw [ho4]
                  constructor
                  · rintro (h | h | ⟨w, hw, hb1, hb2⟩)
                    · exact Or.inl h
                    · exact absurd rfl h
                    · refine Or.inr (Or.inr ⟨w, ?_, hb1, hb2⟩)
                      simp only [ptsF_cons, Finset.mem_union]
                      exact Or.inr hw
                  · rintro (h | h | ⟨w, hw, hb1, hb2⟩)
                    · exact Or.inl h
                    · exact absurd rfl h
                    · simp only [ptsF_cons, Finset.mem_union, Finset.mem_Icc] at hw
                      rcases hw with hw | hw
                      · omega
                      · exact Or.inr (Or.inr ⟨w, hw, hb1, hb2⟩)
              · rw [if_neg hc5]
                by_cases hc6 : x.low ≤ v ∧ v < x.high
                · -- x starts inside r and ends after it: truncate r's high end
                  rw [if_pos hc6]
                  have hklow : k < x.low := by
                    have h1 : ¬(k ≥ x.low ∧ v ≤ x.high) := fun h => hc3 ⟨h.1, h.2⟩
                    omega
                  rw [if_neg (by omega : ¬(k = v)),
                    if_neg (by omega : ¬(x.low = x.high))]
                  have hpnil : pending = [] := by
                    rcases pending with - | ⟨p, pl⟩
                    · rfl
                    · have h1 := hpend p (List.mem_cons_self _ _)
                      have h2 := hpk p (List.mem_cons_self _ _)
                      have h3 := hInvP.1 p (List.mem_cons_self _ _)
                      omega
                  subst hpnil
                  have hInv2 : Inv ((kept ++ []) ++ [] ++ (k, x.low - 1) :: tl) := by
                    simp only [List.append_nil]
                    rw [Inv_append_iff]
                    refine ⟨hInvK, ?_, ?_⟩
                    · rw [Inv_cons_iff]
                      refine ⟨by omega, hInvTl, ?_⟩
                      intro f hf
                      have hf2 := List.mem_of_mem_head? hf
                      have := hGapTl f hf2
                      simp only [EGap]
                      omega
                    · intro p hp q hq
                      simp only [List.head?_cons, Option.mem_def,
                        Option.some.injEq] at hq
                      have hp2 := List.mem_of_mem_getLast? hp
                      have h1 := hkeptk p hp2
                      rw [← hq]
                      simp only [EGap]
                      omega
                  have hfuel2 :
                      2 * ((k, x.low - 1) :: tl).length +
                        loopFuel x ((k, x.low - 1) :: tl) < fuel := by
                    have h1 : loopFuel x ((k, x.low - 1) :: tl) = 0 := by
                      simp only [loopFuel]
                      rw [if_neg (by omega)]
                    have h2 : loopFuel x ((k, v) :: tl) = 1 := by
                      simp only [loopFuel]
                      rw [if_pos (by omega)]
                    rw [h2] at hfuel
                    rw [h1]
                    simp only [List.length_cons] at hfuel ⊢
                    omega
                  obtain ⟨out, ho1, ho2, ho3, ho4⟩ :=
                    ih (kept ++ []) [] ((k, x.low - 1) :: tl) true hfuel2 hInv2
                      (by simpa using hkept) (by simp)
                  refine ⟨out, ho1, ho2, ?_, ?_⟩
                  · rw [ho3]
                    simp only [List.append_nil, ptsF_append, ptsF_cons]
                    apply Finset.ext
                    intro w
                    have hq1 := fun hh => ptsF_lt_of_highs hkept w hh
                    have hq2 := fun hh => ptsF_gt_of_lows (t := v)
                      (fun f hf => by have := hGapTl f hf; omega) w hh
                    simp only [Finset.mem_sdiff, Finset.mem_union, Finset.mem_Icc]
                    by_cases hw1 : w ∈ ptsF kept <;> by_cases hw2 : w ∈ ptsF tl <;>
                      simp only [hw1, hw2, true_or, or_true, false_or, or_false,
                        iff_true, true_iff, iff_false, false_iff, true_and,
                        and_true, true_implies, false_implies] at hq1 hq2 ⊢ <;>
                      omega
                  · rw [ho4]
                    refine iff_of_true ?_ ?_
                    · exact Or.inl rfl
                    · refine Or.inr (Or.inr ⟨x.low, ?_, le_refl _, hx⟩)
                      simp only [ptsF_cons, Finset.mem_union, Finset.mem_Icc]
                      exact Or.inl (by omega)
                · rw [if_neg hc6]
                  by_cases hc7 : x.high ≥ k ∧ v > x.high
                  · -- x ends inside r: bulk-erase the run plus r, reinsert
                    -- r's upper remainder
                    rw [if_pos hc7]
                    obtain ⟨hc7a, hc7b⟩ := hc7
                    have hklow : k > x.low := by
                      have h1 : ¬(x.low ≥ k ∧ x.high ≤ v) := fun h => hc2 ⟨h.1, h.2⟩
                      omega
                    rw [if_pos (by omega : v > k)]
                    have hkeptlt : ∀ e ∈ kept, e.1 < x.high + 1 := fun e he => by
                      have h1 := hkept e he
                      have h2 := hInvK.1 e he
                      omega
                    have htlgt : ∀ f ∈ tl, x.high + 1 < f.1 := fun f hf => by
                      have := hGapTl f hf
                      omega
                    rw [mapInsert_position hkeptlt htlgt]
                    refine ⟨(kept ++ (x.high + 1, v) :: tl, true), rfl, ?_, ?_, ?_⟩
                    · show Inv (kept ++ (x.high + 1, v) :: tl)
                      rw [Inv_append_iff]
                      refine ⟨hInvK, ?_, ?_⟩
                      · rw [Inv_cons_iff]
                        exact ⟨by omega, hInvTl, head?_gap_of_forall hGapTl⟩
                      · intro p hp q hq
                        have hp2 := List.mem_of_mem_getLast? hp
                        simp only [List.head?_cons, Option.mem_def,
                          Option.some.injEq] at hq
                        have h1 := hkept p hp2
                        rw [← hq]
                        simp only [EGap]
                        omega
                    · show ptsF (kept ++ (x.high + 1, v) :: tl) =
                        ptsF (kept ++ pending ++ (k, v) :: tl) \
                          Finset.Icc x.low x.high
                      simp only [ptsF_append, ptsF_cons]
                      apply Finset.ext
                      intro w
                      have hq1 := fun hh => ptsF_lt_of_highs hkept w hh
                      have hq2 := fun hh => ptsF_gt_of_lows (t := v)
                        (fun f hf => by have := hGapTl f hf; omega) w hh
                      have hq3 := fun hh => ptsF_pending_bounds hpend w hh
                      simp only [Finset.mem_sdiff, Finset.mem_union, Finset.mem_Icc]
                      by_cases hw1 : w ∈ ptsF kept <;> by_cases hw2 : w ∈ ptsF tl <;>
                        by_cases hw3 : w ∈ ptsF pending <;>
                        simp only [hw1, hw2, hw3, true_or, or_true, false_or,
                          or_false, iff_true, true_iff, iff_false, false_iff,
                          true_and, and_true, true_implies, false_implies]
                          at hq1 hq2 hq3 ⊢ <;>
                        omega
                    · constructor
                      · intro h2
                        refine Or.inr (Or.inr ⟨k, ?_, by omega, by omega⟩)
                        simp only [ptsF_cons, Finset.mem_union, Finset.mem_Icc]
                        exact Or.inl (by omega)
                      · intro h2
                        rfl
                  · -- unreachable fall-through: the guards are exhaustive
                    exfalso
                    have hn2 : ¬(x.low ≥ k ∧ x.high ≤ v) := fun h => hc2 ⟨h.1, h.2⟩
                    have hn3 : ¬(k ≥ x.low ∧ v ≤ x.high) := fun h => hc3 ⟨h.1, h.2⟩
                    omega

/-- Unfolding of `remove` when there is no entry with key below `x.low`. -/
lemma remove_eq_nolower {x : Range} {s : disjoint_range_tree}
    (hlast : (s.m_ranges.takeWhile (fun e => e.1 < x.low)).getLast? = none) :
    remove x s =
      (removeLoop x
        (2 * (s.m_ranges.dropWhile (fun e => e.1 < x.low)).length + 2)
        [] [] (s.m_ranges.dropWhile (fun e => e.1 < x.low)) false).map
        (fun pr => ({ m_ranges := pr.1, m_range_size := none }, pr.2)) := by
  rw [remove, hlast]

/-- Unfolding of `remove` when the greatest entry with key below `x.low` is `p`. -/
lemma remove_eq_lower {x : Range} {s : disjoint_range_tree} {p : Entry}
    (hlast : (s.m_ranges.takeWhile (fun e => e.1 < x.low)).getLast? = some p) :
    remove x s =
      (removeLoop x
        (2 * (p :: s.m_ranges.dropWhile (fun e => e.1 < x.low)).length + 2)
        (s.m_ranges.takeWhile (fun e => e.1 < x.low)).dropLast []
        (p :: s.m_ranges.dropWhile (fun e => e.1 < x.low)) false).map
        (fun pr => ({ m_ranges := pr.1, m_range_size := none }, pr.2)) := by
  rw [remove, hlast]

/-- Main specification of `remove`: under the invariant it never throws, it
clears the cached size, the result satisfies the invariant and covers exactly
the old points minus the removed range's points, and the returned Bool reports
whether any covered point was removed. -/
lemma remove_spec {s : disjoint_range_tree} {x : Range}
    (hinv : Inv s.m_ranges) (hx : x.low ≤ x.high) :
    ∃ l' ret,
      remove x s = some ({ m_ranges := l', m_range_size := none }, ret) ∧
      Inv l' ∧
      ptsF l' = ptsF s.m_ranges \ Finset.Icc x.low x.high ∧
      (ret = true ↔ ∃ w ∈ ptsF s.m_ranges, x.low ≤ w ∧ w ≤ x.high) := by
  have hsplit := takeWhile_append_dropWhile_entries s.m_ranges x.low
  have htake := takeWhile_keys (l := s.m_ranges) (k := x.low)
  have hib : Inv (s.m_ranges.takeWhile (fun e => e.1 < x.low) ++
      s.m_ranges.dropWhile (fun e => e.1 < x.low)) := by
    rw [hsplit]; exact hinv
  have hpts : ptsF s.m_ranges =
      ptsF (s.m_ranges.takeWhile (fun e => e.1 < x.low)) ∪
      ptsF (s.m_ranges.dropWhile (fun e => e.1 < x.low)) := by
    rw [← ptsF_append, hsplit]
  obtain ⟨hInvA, hInvB, hGapAB⟩ := Inv_append_iff.mp hib
  cases hlast : (s.m_ranges.takeWhile (fun e => e.1 < x.low)).getLast? with
  | none =>
    -- the takeWhile part is empty: the scan starts at the lower bound
    have hae : s.m_ranges.takeWhile (fun e => e.1 < x.low) = [] := by
      cases hb2 : s.m_ranges.takeWhile (fun e => e.1 < x.low) with
      | nil => rfl
      | cons e tl =>
        rw [hb2, List.getLast?_eq_getLast _ (by simp)] at hlast
        simp at hlast
    rw [remove_eq_nolower hlast]
    have hfuel : 2 * (s.m_ranges.dropWhile (fun e => e.1 < x.low)).length +
        loopFuel x (s.m_ranges.dropWhile (fun e => e.1 < x.low)) <
        2 * (s.m_ranges.dropWhile (fun e => e.1 < x.low)).length + 2 := by
      have : ∀ l : List Entry, loopFuel x l ≤ 1 := by
        intro l
        cases l with
        | nil => simp [loopFuel]
        | cons a b =>
          obtain ⟨a1, a2⟩ := a
          simp only [loopFuel]
          split_ifs <;> omega
      have := this (s.m_ranges.dropWhile (fun e => e.1 < x.low))
      omega
    obtain ⟨out, ho1, ho2, ho3, ho4⟩ :=
      removeLoop_spec hx _ [] [] (s.m_ranges.dropWhile (fun e => e.1 < x.low))
        false hfuel (by simpa using hInvB) (by simp) (by simp)
    refine ⟨out.1, out.2, ?_, ho2, ?_, ?_⟩
    · rw [ho1]
      rfl
    · rw [ho3, hpts, hae]
      simp
    · rw [ho4, hpts, hae]
      simp
  | some p =>
    have hadecomp : s.m_ranges.takeWhile (fun e => e.1 < x.low) =
        (s.m_ranges.takeWhile (fun e => e.1 < x.low)).dropLast ++ [p] :=
      getLast?_some_decomp hlast
    have hpmem : p ∈ s.m_ranges.takeWhile (fun e => e.1 < x.low) := by
      rw [hadecomp]
      simp
    have hpx : p.1 < x.low := htake p hpmem
    have hdrop_gt : ∀ e ∈ (s.m_ranges.takeWhile (fun e => e.1 < x.low)).dropLast,
        e.2 + 1 < p.1 := by
      have h2 : Inv ((s.m_ranges.takeWhile (fun e => e.1 < x.low)).dropLast ++
          p :: []) := by
        rw [← hadecomp]
        exact hInvA
      exact Inv_before_cons h2
    have hkept : ∀ e ∈ (s.m_ranges.takeWhile (fun e => e.1 < x.low)).dropLast,
        e.2 < x.low := by
      intro e he
      have h1 := hdrop_gt e he
      omega
    rw [remove_eq_lower hlast]
    have hliste : (s.m_ranges.takeWhile (fun e => e.1 < x.low)).dropLast ++ [] ++
        (p :: s.m_ranges.dropWhile (fun e => e.1 < x.low)) =
        s.m_ranges.takeWhile (fun e => e.1 < x.low) ++
        s.m_ranges.dropWhile (fun e => e.1 < x.low) := by
      rw [List.append_nil]
      conv_rhs => rw [hadecomp]
      simp
    have hfuel : 2 * (p :: s.m_ranges.dropWhile (fun e => e.1 < x.low)).length +
        loopFuel x (p :: s.m_ranges.dropWhile (fun e => e.1 < x.low)) <
        2 * (p :: s.m_ranges.dropWhile (fun e => e.1 < x.low)).length + 2 := by
      obtain ⟨p1, p2⟩ := p
      simp only [loopFuel]
      split_ifs <;> omega
    obtain ⟨out, ho1, ho2, ho3, ho4⟩ :=
      removeLoop_spec hx _ (s.m_ranges.takeWhile (fun e => e.1 < x.low)).dropLast
        [] (p :: s.m_ranges.dropWhile (fun e => e.1 < x.low)) false hfuel
        (by rw [hliste, hsplit]; exact hinv) hkept (by simp)
    refine ⟨out.1, out.2, ?_, ho2, ?_, ?_⟩
    · rw [ho1]
      rfl
    · rw [ho3, hliste, hsplit]
    · rw [ho4]
      have hdl := ptsF_lt_of_highs hkept
      constructor
      · rintro (h | h | ⟨w, hw, hb1, hb2⟩)
        · simp at h
        · exact absurd rfl h
        · refine ⟨w, ?_, hb1, hb2⟩
          rw [hpts, Finset.mem_union]
          rw [ptsF_cons, Finset.mem_union] at hw
          rcases hw with hw | hw
          · rw [Finset.mem_Icc] at hw
            exact Or.inl (mem_ptsF.mpr ⟨p, hpmem, hw.1, hw.2⟩)
          · exact Or.inr hw
      · rintro ⟨w, hw, hb1, hb2⟩
        rw [hpts, Finset.mem_union] at hw
        refine Or.inr (Or.inr ⟨w, ?_, hb1, hb2⟩)
        rcases hw with hw | hw
        · rw [ptsF_cons, Finset.mem_union]
          conv_lhs at hw => rw [hadecomp]
          rw [ptsF_append, Finset.mem_union] at hw
          rcases hw with hw | hw
          · have := hdl w hw
            omega
          · rw [ptsF_cons] at hw
            simp only [ptsF_nil, Finset.union_empty] at hw
            exact Or.inl hw
        · rw [ptsF_cons, Finset.mem_union]
          exact Or.inr hw

/-! ### Correctness of the query engine -/

/-- The sum of range sizes equals the cardinality of the covered point set. -/
lemma sumSizes_eq_card {l : List Entry} (h : Inv l) :
    sumSizes l = ((ptsF l).card : Int) := by
  induction l with
  | nil => simp [sumSizes]
  | cons e tl ih =>
    obtain ⟨he, htl, -⟩ := Inv_cons_iff.mp h
    have hgap := Inv_gap_head h
    have hdisj : Disjoint (Finset.Icc e.1 e.2) (ptsF tl) := by
      rw [Finset.disjoint_left]
      intro w hw hw2
      rw [Finset.mem_Icc] at hw
      have := ptsF_gt_of_lows (t := e.2)
        (fun f hf => by have := hgap f hf; omega) w hw2
      omega
    rw [sumSizes, ih htl, ptsF_cons, Finset.card_union_of_disjoint hdisj,
      Int.card_Icc]
    push_cast
    omega

/-- The head's low endpoint is the least covered point. -/
lemma head_low_least {e : Entry} {tl : List Entry} (h : Inv (e :: tl)) :
    e.1 ∈ ptsF (e :: tl) ∧ ∀ w ∈ ptsF (e :: tl), e.1 ≤ w := by
  have he : e.1 ≤ e.2 := (Inv_cons_iff.mp h).1
  have hgap := Inv_gap_head h
  constructor
  · rw [ptsF_cons, Finset.mem_union, Finset.mem_Icc]
    exact Or.inl ⟨le_refl _, he⟩
  · intro w hw
    rw [ptsF_cons, Finset.mem_union, Finset.mem_Icc] at hw
    rcases hw with hw | hw
    · omega
    · have := ptsF_gt_of_lows (t := e.2)
        (fun f hf => by have := hgap f hf; omega) w hw
      omega

/-- The last entry's high endpoint is the greatest covered point. -/
lemma last_high_greatest {l : List Entry} (h : Inv l) :
    ∀ p ∈ l.getLast?, p.2 ∈ ptsF l ∧ ∀ w ∈ ptsF l, w ≤ p.2 := by
  induction l with
  | nil => simp
  | cons e tl ih =>
    intro p hp
    have he : e.1 ≤ e.2 := (Inv_cons_iff.mp h).1
    have htl : Inv tl := (Inv_cons_iff.mp h).2.1
    have hgap := Inv_gap_head h
    cases htl2 : tl with
    | nil =>
      subst htl2
      simp only [List.getLast?_singleton, Option.mem_def, Option.some.injEq] at hp
      rw [← hp]
      constructor
      · rw [ptsF_cons, Finset.mem_union, Finset.mem_Icc]
        exact Or.inl ⟨he, le_refl _⟩
      · intro w hw
        rw [ptsF_cons, ptsF_nil, Finset.union_empty, Finset.mem_Icc] at hw
        omega
    | cons f tl2 =>
      subst htl2
      have hp2 : p ∈ (f :: tl2).getLast? := by
        rw [List.getLast?_cons_cons] at hp
        exact hp
      obtain ⟨ih1, ih2⟩ := ih htl p hp2
      have hpmem : p ∈ f :: tl2 := List.mem_of_mem_getLast? hp2
      have hpgap : e.2 + 1 < p.1 := hgap p hpmem
      have hp12 : p.1 ≤ p.2 := htl.1 p hpmem
      constructor
      · rw [ptsF_cons, Finset.mem_union]
        exact Or.inr ih1
      · intro w hw
        rw [ptsF_cons, Finset.mem_union, Finset.mem_Icc] at hw
        rcases hw with hw | hw
        · omega
        · exact ih2 w hw

/-- The covered point set is empty exactly when the map is empty. -/
lemma ptsF_eq_empty_iff {l : List Entry} (h : Inv l) :
    ptsF l = ∅ ↔ l = [] := by
  cases l with
  | nil => simp
  | cons e tl =>
    simp only [iff_false, ne_eq, reduceCtorEq]
    intro hcon
    have h1 := (head_low_least h).1
    rw [hcon] at h1
    exact absurd h1 (Finset.not_mem_empty _)

/-- Unfolding of `contains` on the empty tree. -/
lemma contains_eq_empty {s : disjoint_range_tree} {r : Range}
    (h : s.m_ranges = []) : contains s r = false := by
  rw [contains, if_pos h]

/-- Unfolding of `contains` when the lower bound is `end()`: the test is made
against the last entry below `r.low`. -/
lemma contains_eq_end {s : disjoint_range_tree} {r : Range} {p : Entry}
    (hlne : s.m_ranges ≠ [])
    (hb : s.m_ranges.dropWhile (fun e => e.1 < r.low) = [])
    (hlast : (s.m_ranges.takeWhile (fun e => e.1 < r.low)).getLast? = some p) :
    contains s r = decide (Range.contains ⟨p.1, p.2⟩ r) := by
  rw [contains, if_neg hlne, hb]
  dsimp only
  rw [hlast]

/-- Unfolding of `contains` when the lower bound finds an entry and a previous
entry exists. -/
lemma contains_eq_found {s : disjoint_range_tree} {r : Range} {k w : Int}
    {tl : List Entry} {p : Entry} (hlne : s.m_ranges ≠ [])
    (hb : s.m_ranges.dropWhile (fun e => e.1 < r.low) = (k, w) :: tl)
    (hlast : (s.m_ranges.takeWhile (fun e => e.1 < r.low)).getLast? = some p) :
    contains s r =
      if s.m_ranges.takeWhile (fun e => e.1 < r.low) ≠ [] ∧ k > r.low then
        decide (Range.contains ⟨p.1, p.2⟩ r)
      else decide (Range.contains ⟨k, w⟩ r) := by
  rw [contains, if_neg hlne, hb]
  dsimp only
  rw [hlast]

/-- Unfolding of `contains` when the lower bound finds the very first entry. -/
lemma contains_eq_found_nolower {s : disjoint_range_tree} {r : Range} {k w : Int}
    {tl : List Entry} (hlne : s.m_ranges ≠ [])
    (hb : s.m_ranges.dropWhile (fun e => e.1 < r.low) = (k, w) :: tl)
    (hlast : (s.m_ranges.takeWhile (fun e => e.1 < r.low)).getLast? = none) :
    contains s r = decide (Range.contains ⟨k, w⟩ r) := by
  have hae : s.m_ranges.takeWhile (fun e => e.1 < r.low) = [] := by
    cases hb2 : s.m_ranges.takeWhile (fun e => e.1 < r.low) with
    | nil => rfl
    | cons f fl =>
      rw [hb2, List.getLast?_eq_getLast _ (by simp)] at hlast
      simp at hlast
  rw [contains, if_neg hlne, hb, hae]
  rfl

/-- `contains(v)` agrees with membership in the covered point set. -/
lemma containsPt_spec {s : disjoint_range_tree} (hinv : Inv s.m_ranges)
    (v : Int) : containsPt s v = true ↔ v ∈ ptsF s.m_ranges := by
  by_cases hlne : s.m_ranges = []
  · unfold containsPt
    rw [contains_eq_empty hlne, hlne]
    simp
  · have hsplit := takeWhile_append_dropWhile_entries s.m_ranges v
    have htake := takeWhile_keys (l := s.m_ranges) (k := v)
    have hdropk := dropWhile_keys (l := s.m_ranges) (k := v) hinv
    have hib : Inv (s.m_ranges.takeWhile (fun e => e.1 < v) ++
        s.m_ranges.dropWhile (fun e => e.1 < v)) := by
      rw [hsplit]; exact hinv
    have hpts : ptsF s.m_ranges =
        ptsF (s.m_ranges.takeWhile (fun e => e.1 < v)) ∪
        ptsF (s.m_ranges.dropWhile (fun e => e.1 < v)) := by
      rw [← ptsF_append, hsplit]
    obtain ⟨hInvA, hInvB, hGapAB⟩ := Inv_append_iff.mp hib
    unfold containsPt
    cases hb : s.m_ranges.dropWhile (fun e => e.1 < v) with
    | nil =>
      have hane : s.m_ranges.takeWhile (fun e => e.1 < v) ≠ [] := by
        intro hcon
        rw [← hsplit, hcon, hb] at hlne
        exact hlne rfl
      cases hlast : (s.m_ranges.takeWhile (fun e => e.1 < v)).getLast? with
      | none =>
        exfalso
        cases hb2 : s.m_ranges.takeWhile (fun e => e.1 < v) with
        | nil => exact hane hb2
        | cons f fl =>
          rw [hb2, List.getLast?_eq_getLast _ (by simp)] at hlast
          simp at hlast
      | some p =>
        rw [contains_eq_end hlne hb hlast]
        have hpmem : p ∈ s.m_ranges.takeWhile (fun e => e.1 < v) := by
          rw [getLast?_some_decomp hlast]
          simp
        have hpv : p.1 < v := htake p hpmem
        have hdla : ∀ e ∈ (s.m_ranges.takeWhile (fun e => e.1 < v)).dropLast,
            e.2 + 1 < p.1 := by
          have h2 : Inv ((s.m_ranges.takeWhile (fun e => e.1 < v)).dropLast ++
              p :: []) := by
            rw [← getLast?_some_decomp hlast]
            exact hInvA
          exact Inv_before_cons h2
        rw [hb] at hpts
        simp only [ptsF_nil, Finset.union_empty] at hpts
        simp only [decide_eq_true_eq, Range.contains]
        constructor
        · rintro ⟨hc1, hc2⟩
          rw [hpts]
          exact mem_ptsF.mpr ⟨p, hpmem, by omega, by omega⟩
        · intro hc
          rw [hpts] at hc
          obtain ⟨f, hf, hf1, hf2⟩ := mem_ptsF.mp hc
          have hfp : f = p ∨
              f ∈ (s.m_ranges.takeWhile (fun e => e.1 < v)).dropLast := by
            rw [getLast?_some_decomp hlast] at hf
            rcases List.mem_append.mp hf with hf3 | hf3
            · exact Or.inr hf3
            · simp only [List.mem_singleton] at hf3
              exact Or.inl hf3
          rcases hfp with hfp | hfd
          · rw [hfp] at hf1 hf2
            exact ⟨by omega, by omega⟩
          · exfalso
            have := hdla f hfd
            omega
    | cons kv tl =>
      obtain ⟨k, w⟩ := kv
      rw [hb] at hdropk hInvB hpts
      have hk_ge : v ≤ k := hdropk (k, w) (List.mem_cons_self _ _)
      have hkw : k ≤ w := hInvB.1 (k, w) (List.mem_cons_self _ _)
      have hGapTlB := Inv_gap_head hInvB
      have htlgt : ∀ z ∈ ptsF tl, w < z := ptsF_gt_of_lows (t := w)
        (fun f hf => by have := hGapTlB f hf; omega)
      cases hlast : (s.m_ranges.takeWhile (fun e => e.1 < v)).getLast? with
      | none =>
        have hae : s.m_ranges.takeWhile (fun e => e.1 < v) = [] := by
          cases hb2 : s.m_ranges.takeWhile (fun e => e.1 < v) with
          | nil => rfl
          | cons f fl =>
            rw [hb2, List.getLast?_eq_getLast _ (by simp)] at hlast
            simp at hlast
        rw [contains_eq_found_nolower hlne hb hlast]
        rw [hae] at hpts
        simp only [ptsF_nil, Finset.empty_union] at hpts
        simp only [decide_eq_true_eq, Range.contains]
        constructor
        · rintro ⟨hc1, hc2⟩
          rw [hpts, ptsF_cons, Finset.mem_union, Finset.mem_Icc]
          exact Or.inl ⟨by omega, by omega⟩
        · intro hc
          rw [hpts, ptsF_cons, Finset.mem_union, Finset.mem_Icc] at hc
          rcases hc with hc | hc
          · exact ⟨by omega, by omega⟩
          · have h2 := htlgt v hc
            exact ⟨by omega, by omega⟩
      | some p =>
        rw [contains_eq_found hlne hb hlast]
        dsimp only
        have hpmem : p ∈ s.m_ranges.takeWhile (fun e => e.1 < v) := by
          rw [getLast?_some_decomp hlast]
          simp
        have hpv : p.1 < v := htake p hpmem
        have hane : s.m_ranges.takeWhile (fun e => e.1 < v) ≠ [] := by
          intro hcon
          rw [hcon] at hpmem
          exact absurd hpmem (List.not_mem_nil _)
        have hdla : ∀ e ∈ (s.m_ranges.takeWhile (fun e => e.1 < v)).dropLast,
            e.2 + 1 < p.1 := by
          have h2 : Inv ((s.m_ranges.takeWhile (fun e => e.1 < v)).dropLast ++
              p :: []) := by
            rw [← getLast?_some_decomp hlast]
            exact hInvA
          exact Inv_before_cons h2
        by_cases hkv2 : k > v
        · rw [if_pos ⟨hane, hkv2⟩]
          simp only [decide_eq_true_eq, Range.contains]
          constructor
          · rintro ⟨hc1, hc2⟩
            rw [hpts]
            exact Finset.mem_union_left _
              (mem_ptsF.mpr ⟨p, hpmem, by omega, by omega⟩)
          · intro hc
            rw [hpts, Finset.mem_union] at hc
            rcases hc with hc | hc
            · obtain ⟨f, hf, hf1, hf2⟩ := mem_ptsF.mp hc
              have hfp : f = p ∨
                  f ∈ (s.m_ranges.takeWhile (fun e => e.1 < v)).dropLast := by
                rw [getLast?_some_decomp hlast] at hf
                rcases List.mem_append.mp hf with hf3 | hf3
                · exact Or.inr hf3
                · simp only [List.mem_singleton] at hf3
                  exact Or.inl hf3
              rcases hfp with hfp | hfd
              · rw [hfp] at hf1 hf2
                exact ⟨by omega, by omega⟩
              · exfalso
                have := hdla f hfd
                omega
            · exfalso
              rw [ptsF_cons, Finset.mem_union, Finset.mem_Icc] at hc
              rcases hc with hc | hc
              · omega
              · have := htlgt v hc
                omega
        · rw [if_neg (fun hcon => hkv2 hcon.2)]
          -- here v ≤ k and ¬(k > v), so k = v and the found entry contains v
          have hkev : k = v := by omega
          simp only [decide_eq_true_eq, Range.contains]
          refine iff_of_true ⟨by omega, by omega⟩ ?_
          rw [hpts, ptsF_cons]
          refine Finset.mem_union_right _ (Finset.mem_union_left _ ?_)
          rw [Finset.mem_Icc]
          omega

/-- Canonicity: two invariant-satisfying maps covering the same points are
identical lists.  (The representation of a disjoint union of maximal runs is
unique.) -/
lemma Inv_canonical : ∀ {l l2 : List Entry},
    Inv l → Inv l2 → ptsF l = ptsF l2 → l = l2 := by
  intro l
  induction l with
  | nil =>
    intro l2 h1 h2 hpts
    cases l2 with
    | nil => rfl
    | cons f tl2 =>
      exfalso
      have hf := (head_low_least h2).1
      rw [← hpts, ptsF_nil] at hf
      exact absurd hf (Finset.not_mem_empty _)
  | cons e tl ih =>
    intro l2 h1 h2 hpts
    cases l2 with
    | nil =>
      exfalso
      have hf := (head_low_least h1).1
      rw [hpts, ptsF_nil] at hf
      exact absurd hf (Finset.not_mem_empty _)
    | cons f tl2 =>
      have he : e.1 ≤ e.2 := (Inv_cons_iff.mp h1).1
      have hf : f.1 ≤ f.2 := (Inv_cons_iff.mp h2).1
      have hgap1 := Inv_gap_head h1
      have hgap2 := Inv_gap_head h2
      -- the two heads have the same low (both are the least point)
      have hlow : e.1 = f.1 := by
        obtain ⟨hm1, hle1⟩ := head_low_least h1
        obtain ⟨hm2, hle2⟩ := head_low_least h2
        have h3 := hle1 f.1 (by rw [hpts]; exact hm2)
        have h4 := hle2 e.1 (by rw [← hpts]; exact hm1)
        omega
      -- the two heads have the same high (the successor of either is uncovered)
      have hnotmem1 : e.2 + 1 ∉ ptsF (e :: tl) := by
        rw [ptsF_cons, Finset.mem_union, Finset.mem_Icc]
        rintro (hc | hc)
        · omega
        · have := ptsF_gt_of_lows (t := e.2 + 1)
            (fun g hg => by have := hgap1 g hg; omega) _ hc
          omega
      have hnotmem2 : f.2 + 1 ∉ ptsF (f :: tl2) := by
        rw [ptsF_cons, Finset.mem_union, Finset.mem_Icc]
        rintro (hc | hc)
        · omega
        · have := ptsF_gt_of_lows (t := f.2 + 1)
            (fun g hg => by have := hgap2 g hg; omega) _ hc
          omega
      have hhigh : e.2 = f.2 := by
        by_contra hne
        rcases lt_or_gt_of_ne hne with hlt | hgt
        · apply hnotmem1
          rw [hpts, ptsF_cons, Finset.mem_union, Finset.mem_Icc]
          exact Or.inl ⟨by omega, by omega⟩
        · apply hnotmem2
          rw [← hpts, ptsF_cons, Finset.mem_union, Finset.mem_Icc]
          exact Or.inl ⟨by omega, by omega⟩
      -- the tails cover the same points
      have htleq : ptsF tl = ptsF tl2 := by
        have ht1 : ptsF tl = ptsF (e :: tl) \ Finset.Icc e.1 e.2 := by
          apply Finset.ext
          intro w
          rw [ptsF_cons]
          simp only [Finset.mem_sdiff, Finset.mem_union, Finset.mem_Icc]
          constructor
          · intro hw
            have := ptsF_gt_of_lows (t := e.2)
              (fun g hg => by have := hgap1 g hg; omega) w hw
            exact ⟨Or.inr hw, by omega⟩
          · rintro ⟨hw | hw, hni⟩
            · omega
            · exact hw
        have ht2 : ptsF tl2 = ptsF (f :: tl2) \ Finset.Icc f.1 f.2 := by
          apply Finset.ext
          intro w
          rw [ptsF_cons]
          simp only [Finset.mem_sdiff, Finset.mem_union, Finset.mem_Icc]
          constructor
          · intro hw
            have := ptsF_gt_of_lows (t := f.2)
              (fun g hg => by have := hgap2 g hg; omega) w hw
            exact ⟨Or.inr hw, by omega⟩
          · rintro ⟨hw | hw, hni⟩
            · omega
            · exact hw
        rw [ht1, ht2, hpts, hlow, hhigh]
      have htail := ih (Inv_cons_iff.mp h1).2.1 (Inv_cons_iff.mp h2).2.1 htleq
      have hheads : e = f := Prod.ext hlow hhigh
      rw [hheads, htail]


/-- `size()` returns the point-set cardinality, re-establishes the cache
invariant, and leaves the stored ranges untouched. -/
lemma size_spec {s : disjoint_range_tree} (hinv : Inv s.m_ranges)
    (hc : CacheOK s) :
    (size s).1 = ((ptsF s.m_ranges).card : Int) ∧
    (size s).2.m_ranges = s.m_ranges ∧ CacheOK (size s).2 := by
  obtain ⟨l, c⟩ := s
  cases c with
  | none =>
    refine ⟨sumSizes_eq_card hinv, rfl, ?_⟩
    intro n hn
    exact (Option.some.inj hn).symm
  | some n0 =>
    exact ⟨(hc n0 rfl).trans (sumSizes_eq_card hinv), rfl, hc⟩

/-- `lowest()` is absent exactly on the empty map. -/
lemma lowest_eq_none_iff {s : disjoint_range_tree} :
    lowest s = none ↔ s.m_ranges = [] := by
  unfold lowest
  cases h : s.m_ranges with
  | nil => simp
  | cons e l0 => simp

/-- `highest()` is absent exactly on the empty map. -/
lemma highest_eq_none_iff {s : disjoint_range_tree} :
    highest s = none ↔ s.m_ranges = [] := by
  unfold highest
  cases h : s.m_ranges with
  | nil => simp
  | cons e l0 =>
    rw [List.getLast?_eq_getLast _ (by simp)]
    simp

/-- `lowest()` returns the least covered point. -/
lemma lowest_spec {s : disjoint_range_tree} (hinv : Inv s.m_ranges)
    (hne : s.m_ranges ≠ []) :
    ∃ m, lowest s = some m ∧ m ∈ ptsF s.m_ranges ∧
      ∀ w ∈ ptsF s.m_ranges, m ≤ w := by
  cases hl : s.m_ranges with
  | nil => exact absurd hl hne
  | cons e tl =>
    have hinv2 : Inv (e :: tl) := by rw [← hl]; exact hinv
    obtain ⟨hm, hle⟩ := head_low_least hinv2
    refine ⟨e.1, ?_, ?_, ?_⟩
    · simp only [lowest, hl]
    · exact hm
    · intro w hw
      exact hle w hw

/-- `highest()` returns the greatest covered point. -/
lemma highest_spec {s : disjoint_range_tree} (hinv : Inv s.m_ranges)
    (hne : s.m_ranges ≠ []) :
    ∃ m, highest s = some m ∧ m ∈ ptsF s.m_ranges ∧
      ∀ w ∈ ptsF s.m_ranges, w ≤ m := by
  have hlast : ∃ p, s.m_ranges.getLast? = some p := by
    cases hl : s.m_ranges with
    | nil => exact absurd hl hne
    | cons e tl => exact ⟨(e :: tl).getLast (by simp), List.getLast?_eq_getLast _ _⟩
  obtain ⟨p, hp⟩ := hlast
  obtain ⟨hm, hle⟩ := last_high_greatest hinv p hp
  refine ⟨p.2, ?_, hm, hle⟩
  simp only [highest, hp]

/-- Preservation of the representation and cache invariants, and the
point-set refinement, along any valid operation sequence. -/
lemma applyOps_spec : ∀ (ops : List Op) (s : disjoint_range_tree)
    (S : Finset Int),
    ValidOps ops → Inv s.m_ranges → CacheOK s → ptsF s.m_ranges = S →
    ∃ s2, applyOps ops s = some s2 ∧ Inv s2.m_ranges ∧ CacheOK s2 ∧
      ptsF s2.m_ranges = refSet ops S := by
  intro ops
  induction ops with
  | nil =>
    intro s S _ h1 h2 h3
    exact ⟨s, rfl, h1, h2, h3⟩
  | cons op tl ih =>
    intro s S hval h1 h2 h3
    have hvop : OpValid op := hval op (List.mem_cons_self _ _)
    have hvtl : ValidOps tl := fun o ho => hval o (List.mem_cons_of_mem _ ho)
    cases op with
    | add r =>
      obtain ⟨a1, a2, a3⟩ := add_range_spec h1 hvop
      have hcache2 : CacheOK (add_range r s) := by
        rcases a3 with hcase | hcase
        · intro n hn
          rw [hcase] at hn
          cases hn
        · rw [hcase]
          exact h2
      have hstep : applyOps (Op.add r :: tl) s = applyOps tl (add_range r s) := rfl
      rw [hstep]
      have := ih (add_range r s) (S ∪ Finset.Icc r.low r.high) hvtl a1 hcache2
        (by rw [a2, h3])
      simpa [refSet] using this
    | rem r =>
      obtain ⟨l2, ret, hr1, hr2, hr3, hr4⟩ := remove_spec h1 hvop
      have hstep : applyOps (Op.rem r :: tl) s =
          applyOps tl ⟨l2, none⟩ := by
        show (match applyOp s (Op.rem r) with
          | none => none
          | some s2 => applyOps tl s2) = _
        have happ : applyOp s (Op.rem r) = some ⟨l2, none⟩ := by
          show (remove r s).map (fun pr => pr.1) = some ⟨l2, none⟩
          rw [hr1]
          rfl
        rw [happ]
      rw [hstep]
      have := ih ⟨l2, none⟩ (S \ Finset.Icc r.low r.high) hvtl hr2
        (fun n hn => by cases hn) (by rw [hr3, h3])
      simpa [refSet] using this


/-! ### Helper lemmas for the claim theorems -/

/-- The invariant yields positional pairwise gap order. -/
lemma Inv_pairwiseEGap {l : List Entry} (h : Inv l) : l.Pairwise EGap := by
  induction l with
  | nil => exact List.Pairwise.nil
  | cons e tl ih =>
    obtain ⟨-, htl, -⟩ := Inv_cons_iff.mp h
    exact List.Pairwise.cons (Inv_gap_head h) (ih htl)

/-- Replacing the middle entry `(a, b)` of an invariant-satisfying list by any
invariant-satisfying block whose entries stay within `[a, b]` preserves the
invariant. -/
lemma Inv_of_parts {u w mid : List Entry} {a b : Int}
    (hinv : Inv (u ++ (a, b) :: w)) (hmid : Inv mid)
    (hmlow : ∀ e ∈ mid, a ≤ e.1) (hmhigh : ∀ e ∈ mid, e.2 ≤ b) :
    Inv (u ++ (mid ++ w)) := by
  have hu_high : ∀ e ∈ u, e.2 + 1 < a := Inv_before_cons hinv
  have hw_low : ∀ f ∈ w, b + 1 < f.1 := Inv_gap_head (Inv_append_iff.mp hinv).2.1
  have hab : a ≤ b := hinv.1 (a, b) (List.mem_append_right _ (List.mem_cons_self _ _))
  have hInvU : Inv u := (Inv_append_iff.mp hinv).1
  have hInvW : Inv w := (Inv_cons_iff.mp (Inv_append_iff.mp hinv).2.1).2.1
  constructor
  · intro e he
    rcases List.mem_append.mp he with h | h
    · exact hInvU.1 e h
    · rcases List.mem_append.mp h with h2 | h2
      · exact hmid.1 e h2
      · exact hInvW.1 e h2
  · apply List.Pairwise.chain'
    rw [List.pairwise_append]
    refine ⟨Inv_pairwiseEGap hInvU, ?_, ?_⟩
    · rw [List.pairwise_append]
      refine ⟨Inv_pairwiseEGap hmid, Inv_pairwiseEGap hInvW, ?_⟩
      intro p hp q hq
      have h1 := hmhigh p hp
      have h2 := hw_low q hq
      show p.2 + 1 < q.1
      omega
    · intro p hp q hq
      have h1 := hu_high p hp
      rcases List.mem_append.mp hq with h | h
      · have h2 := hmlow q h
        show p.2 + 1 < q.1
        omega
      · have h2 := hw_low q h
        show p.2 + 1 < q.1
        omega

/-- A single valid entry satisfies the invariant. -/
lemma Inv_single {a b : Int} (h : a ≤ b) : Inv [(a, b)] :=
  ⟨by simpa using h, List.chain'_singleton _⟩

/-- Two valid entries in gap order satisfy the invariant. -/
lemma Inv_pair {a b c d : Int} (h1 : a ≤ b) (h2 : b + 1 < c) (h3 : c ≤ d) :
    Inv [(a, b), (c, d)] := by
  constructor
  · intro e he
    rcases List.mem_cons.mp he with rfl | he2
    · exact h1
    · rcases List.mem_cons.mp he2 with rfl | he3
      · exact h3
      · cases he3
  · exact List.chain'_cons.mpr ⟨h2, List.chain'_singleton _⟩

/-- Point set of a middle-block replacement: if the points of `u` lie below
`lo`, the points of `w` lie above `hi`, and the block covers exactly
`[a, b] \ [lo, hi]`, then the assembled list covers the original points minus
`[lo, hi]`. -/
lemma ptsF_parts {u mid w : List Entry} {a b lo hi : Int}
    (hu : ∀ p ∈ ptsF u, p < lo) (hw : ∀ p ∈ ptsF w, hi < p)
    (hmid : ptsF mid = Finset.Icc a b \ Finset.Icc lo hi) :
    ptsF (u ++ (mid ++ w)) = ptsF (u ++ (a, b) :: w) \ Finset.Icc lo hi := by
  ext p
  have hq1 := fun hh => hu p hh
  have hq2 := fun hh => hw p hh
  simp only [ptsF_append, ptsF_cons, hmid, Finset.mem_union, Finset.mem_sdiff,
    Finset.mem_Icc]
  by_cases h1 : p ∈ ptsF u <;> by_cases h2 : p ∈ ptsF w <;>
    simp only [h1, h2, true_or, or_true, false_or, or_false, iff_true, true_iff,
      iff_false, false_iff, true_and, and_true, true_implies, false_implies,
      not_true, not_false_iff] at hq1 hq2 ⊢ <;>
    omega

/-- Every successful `remove` call returns with the cached size cleared. -/
lemma remove_cache_none {x : Range} {s : disjoint_range_tree}
    {out : disjoint_range_tree × Bool} (h : remove x s = some out) :
    out.1.m_range_size = none := by
  cases hlast : (s.m_ranges.takeWhile (fun e => e.1 < x.low)).getLast? with
  | none =>
    rw [remove_eq_nolower hlast] at h
    obtain ⟨pr, hpr1, hpr2⟩ := Option.map_eq_some'.mp h
    rw [← hpr2]
  | some p =>
    rw [remove_eq_lower hlast] at h
    obtain ⟨pr, hpr1, hpr2⟩ := Option.map_eq_some'.mp h
    rw [← hpr2]

/-- Every `add_range` call either clears the cached size or returns the tree
unchanged (the no-op superset path). -/
lemma add_range_cache (r : Range) (t : disjoint_range_tree) :
    (add_range r t).m_range_size = none ∨ add_range r t = t := by
  cases hb : t.m_ranges.dropWhile (fun e => e.1 < r.low) with
  | nil =>
    rw [add_range_eq_nil hb]
    exact Or.inl rfl
  | cons kv tl =>
    obtain ⟨k, v⟩ := kv
    rw [add_range_eq_cons hb]
    split_ifs
    · exact Or.inl rfl
    · exact Or.inr rfl
    · exact Or.inl rfl


/-! ### The claim theorems -/

/-- Claim C1: CODE BUG — the claim constrains the stored collection after
every call of every add_range/remove sequence from the empty tree, but the
program does not define those post-add states: every effective insertion
whose merge run reaches the last stored entry (already the very first add
into the empty tree, e.g. add_range(1,4)) advances the iterator in try_merge
to the past-the-end position and then reads it, which is undefined behaviour.
The instrumented embedding records that read on the claim's own sequences. -/
theorem C1 : addRangeHitsEnd ⟨1, 4⟩ drt_empty = true := rfl

/-- Claim C2: CODE BUG — the reference-model equivalence quantifies over all
operation sequences from empty, but (i) every effective insertion whose merge
run reaches the last stored entry performs try_merge's past-the-end read, so
the program does not define the post-add states being compared (recorded here
for the one-element sequence add_range(1,1)), and (ii) size() accumulates
range::size() values that wrap in the unsigned element type, so at domain
extremes size() differs from the reference cardinality (at low = 0,
high = 2^64 − 1 the fixed-width model yields 0 where the reference set has
2^64 points). -/
theorem C2 : addRangeHitsEnd ⟨1, 1⟩ drt_empty = true ∧
    range_size_u64 0 (2 ^ 64 - 1) = 0 := ⟨rfl, by decide⟩

/-- Claim C3: REFUTED — the claim asserts the forward merge scan never reads
the past-the-end position, but already the very first insertion into the empty
tree advances the iterator to the end and then reads it: the instrumented
embedding records a past-the-end read for add_range(5, 10) on the empty tree. -/
theorem C3 : addRangeHitsEnd ⟨5, 10⟩ drt_empty = true := rfl

/-- Claim C4 (amended): every successful remove call returns with the cached
aggregate size cleared, and every add_range call either clears it or returns
the tree entirely unchanged — the no-op superset path returns early without
invalidating the cache, contrary to the original claim. -/
theorem C4 :
    (∀ (x : Range) (s s2 : disjoint_range_tree) (ret : Bool),
      remove x s = some (s2, ret) → s2.m_range_size = none) ∧
    ∀ (r : Range) (s : disjoint_range_tree),
      (add_range r s).m_range_size = none ∨ add_range r s = s := by
  constructor
  · intro x s s2 ret h
    exact remove_cache_none h
  · intro r s
    exact add_range_cache r s

theorem C4_witness :
    remove ⟨2, 3⟩ { m_ranges := [((1 : Int), (5 : Int))], m_range_size := some 5 }
        = some ({ m_ranges := [(1, 1), (4, 5)], m_range_size := none }, true) ∧
    ({ m_ranges := [((1 : Int), (1 : Int)), (4, 5)], m_range_size := none } :
        disjoint_range_tree).m_range_size = none ∧
    ((add_range ⟨7, 9⟩ drt_empty).m_range_size = none ∨
      add_range ⟨7, 9⟩ drt_empty = drt_empty) :=
  ⟨rfl,
   C4.1 ⟨2, 3⟩ { m_ranges := [(1, 5)], m_range_size := some 5 }
     { m_ranges := [(1, 1), (4, 5)], m_range_size := none } true rfl,
   C4.2 ⟨7, 9⟩ drt_empty⟩

/-- The add_range no-op path (query already covered by a stored superset
entry) returns without clearing the cached size: counterexample to the
unconditional-invalidation part of claim C4. -/
theorem C4_cex :
    ¬ (add_range ⟨5, 10⟩ ((size (add_range ⟨5, 10⟩ drt_empty)).2)).m_range_size
        = none := by decide

/-- Claim C5 (amended): over the unsigned 64-bit domain, range::size returns
high − low + 1 exactly when that value is representable; at the type maximum
(low = 0, high = 2^64 − 1) the computation wraps around to 0 instead of
returning the exact count 2^64. -/
theorem C5 :
    (∀ low high : Nat, low ≤ high → high - low + 1 < 2 ^ 64 →
      range_size_u64 low high = high - low + 1) ∧
    range_size_u64 0 (2 ^ 64 - 1) = 0 := by
  constructor
  · intro low high h1 h2
    exact Nat.mod_eq_of_lt h2
  · decide

theorem C5_witness :
    ((3 : Nat) ≤ 10 ∧ (10 : Nat) - 3 + 1 < 2 ^ 64) ∧
    range_size_u64 3 10 = 10 - 3 + 1 :=
  ⟨⟨by decide, by decide⟩, C5.1 3 10 (by decide) (by decide)⟩

/-- range::size computed as (high − low) + 1 in the 64-bit unsigned domain
wraps to 0 when high is the type maximum and low is 0: counterexample to the
no-overflow part of claim C5. -/
theorem C5_cex : range_size_u64 0 (2 ^ 64 - 1) ≠ (2 ^ 64 - 1) - 0 + 1 := by
  decide

/-- Claim C6: under the representation invariant, remove never reaches either
internal BUG logic_error throw (the embedding returns none exactly when a
throw — or the unreachable fall-through — is hit, so totality of the result
establishes unreachability). -/
theorem C6 (s : disjoint_range_tree) (x : Range) (hinv : Inv s.m_ranges)
    (hx : x.low ≤ x.high) : ∃ out, remove x s = some out := by
  obtain ⟨l2, ret, hr1, -, -, -⟩ := remove_spec hinv hx
  exact ⟨_, hr1⟩

theorem C6_witness :
    Inv [((1 : Int), (5 : Int))] ∧ ((2 : Int) ≤ 3) ∧
    ∃ out, remove ⟨2, 3⟩ { m_ranges := [(1, 5)], m_range_size := none }
      = some out :=
  ⟨⟨by decide, List.chain'_singleton _⟩, by decide,
   C6 { m_ranges := [(1, 5)], m_range_size := none } ⟨2, 3⟩
     ⟨by decide, List.chain'_singleton _⟩ (by decide)⟩

/-- Claim C7: CODE BUG — each of the scenario's three insertions drives the
merge scan onto the past-the-end position: the first (add_range(5,10) on the
empty tree) is exactly the read recorded for claim C3, and the second and
third, recorded here, fire on the states the scan-stop model assigns after
the preceding adds.  The program therefore does not define the scenario's
final state, and the claimed result (5,7),(43,45) with range_count 2 cannot
be certified against the source. -/
theorem C7 :
    addRangeHitsEnd ⟨20, 25⟩ { m_ranges := [(5, 10)], m_range_size := none }
        = true ∧
    addRangeHitsEnd ⟨40, 45⟩
        { m_ranges := [(5, 10), (20, 25)], m_range_size := none } = true :=
  ⟨rfl, rfl⟩

/-- Claim C8 (amended): if a stored range (a, b) of an invariant-satisfying
collection contains the query X and is not identical to it, remove(X) erases
(a, b), reinserts (X.high+1, b) exactly when b > X.high, reinserts
(a, X.low-1) exactly when X.low > a, leaves every other stored range
unchanged, and returns true (the `specSplit` formula).  The original claim's
concrete scenario add_range(20,27); remove(23,23) is dropped: its insertion
performs try_merge's past-the-end read (see `C8_cex`), so the program does
not define the state that remove(23,23) would act on. -/
theorem C8 (s : disjoint_range_tree) (x : Range) (a b : Int)
    (hinv : Inv s.m_ranges) (hx : x.low ≤ x.high) (hmem : (a, b) ∈ s.m_ranges)
    (hal : a ≤ x.low) (hbh : x.high ≤ b) (hne : ¬(a = x.low ∧ b = x.high)) :
    remove x s = some
      ({ m_ranges := specSplit x a b s.m_ranges, m_range_size := none },
       true) := by
  obtain ⟨l2, ret, hr1, hr2, hr3, hr4⟩ := remove_spec hinv hx
  have hret : ret = true :=
    hr4.mpr ⟨x.low, mem_ptsF.mpr ⟨(a, b), hmem, hal, le_trans hx hbh⟩,
      le_refl _, hx⟩
  subst hret
  obtain ⟨u, w, hsplit⟩ := List.append_of_mem hmem
  rw [hsplit] at hinv hr3
  have hu_high : ∀ e ∈ u, e.2 + 1 < a := Inv_before_cons hinv
  have hu_le : ∀ e ∈ u, e.1 ≤ e.2 := fun e he => hinv.1 e (List.mem_append_left _ he)
  have hw_low : ∀ f ∈ w, b + 1 < f.1 := Inv_gap_head (Inv_append_iff.mp hinv).2.1
  have hab : a ≤ b := hinv.1 (a, b) (List.mem_append_right _ (List.mem_cons_self _ _))
  have hu_pts : ∀ p ∈ ptsF u, p < x.low :=
    ptsF_lt_of_highs (fun e he => by have := hu_high e he; omega)
  have hw_pts : ∀ p ∈ ptsF w, x.high < p :=
    ptsF_gt_of_lows (fun f hf => by have := hw_low f hf; omega)
  have herase : eraseKey a (u ++ (a, b) :: w) = u ++ w :=
    eraseKey_append_cons
      (fun e he => by have h1 := hu_high e he; have h2 := hu_le e he; omega)
  have hposu : ∀ e ∈ u, e.1 < a :=
    fun e he => by have h1 := hu_high e he; have h2 := hu_le e he; omega
  by_cases hb2 : b > x.high <;> by_cases ha2 : x.low > a
  · -- both reinsertions
    have hmid1 : mapInsert (x.high + 1) b (u ++ w) = u ++ (x.high + 1, b) :: w :=
      mapInsert_position (fun e he => by have := hposu e he; omega)
        (fun f hf => by have := hw_low f hf; omega)
    have hmid2 : mapInsert a (x.low - 1) (u ++ (x.high + 1, b) :: w) =
        u ++ (a, x.low - 1) :: (x.high + 1, b) :: w :=
      mapInsert_position hposu
        (fun f hf => by
          rcases List.mem_cons.mp hf with rfl | hf2
          · show a < x.high + 1
            omega
          · have := hw_low f hf2
            omega)
    have hF : specSplit x a b (u ++ (a, b) :: w) =
        u ++ ([(a, x.low - 1), (x.high + 1, b)] ++ w) := by
      unfold specSplit
      rw [if_pos ha2, if_pos hb2, herase, hmid1, hmid2]
      rfl
    have hmidpts : ptsF [((a : Int), x.low - 1), (x.high + 1, b)] =
        Finset.Icc a b \ Finset.Icc x.low x.high := by
      ext p
      simp only [ptsF_cons, ptsF_nil, Finset.mem_union, Finset.not_mem_empty,
        or_false, Finset.mem_sdiff, Finset.mem_Icc]
      omega
    have hFinv : Inv (u ++ ([(a, x.low - 1), (x.high + 1, b)] ++ w)) :=
      Inv_of_parts hinv (Inv_pair (by omega) (by omega) (by omega))
        (fun e he => by
          rcases List.mem_cons.mp he with rfl | he2
          · show a ≤ a
            omega
          · rcases List.mem_cons.mp he2 with rfl | he3
            · show a ≤ x.high + 1
              omega
            · cases he3)
        (fun e he => by
          rcases List.mem_cons.mp he with rfl | he2
          · show x.low - 1 ≤ b
            omega
          · rcases List.mem_cons.mp he2 with rfl | he3
            · show b ≤ b
              omega
            · cases he3)
    have hFpts : ptsF (u ++ ([(a, x.low - 1), (x.high + 1, b)] ++ w)) =
        ptsF (u ++ (a, b) :: w) \ Finset.Icc x.low x.high :=
      ptsF_parts hu_pts hw_pts hmidpts
    have hl2 : l2 = u ++ ([(a, x.low - 1), (x.high + 1, b)] ++ w) :=
      Inv_canonical hr2 hFinv (by rw [hr3, ← hFpts])
    rw [hsplit, hF, ← hl2]
    exact hr1
  · -- only the high-end reinsertion (a = x.low)
    have hmid1 : mapInsert (x.high + 1) b (u ++ w) = u ++ (x.high + 1, b) :: w :=
      mapInsert_position (fun e he => by have := hposu e he; omega)
        (fun f hf => by have := hw_low f hf; omega)
    have hF : specSplit x a b (u ++ (a, b) :: w) =
        u ++ ([(x.high + 1, b)] ++ w) := by
      unfold specSplit
      rw [if_neg ha2, if_pos hb2, herase, hmid1]
      rfl
    have hmidpts : ptsF [((x.high + 1 : Int), b)] =
        Finset.Icc a b \ Finset.Icc x.low x.high := by
      ext p
      simp only [ptsF_cons, ptsF_nil, Finset.mem_union, Finset.not_mem_empty,
        or_false, Finset.mem_sdiff, Finset.mem_Icc]
      omega
    have hFinv : Inv (u ++ ([(x.high + 1, b)] ++ w)) :=
      Inv_of_parts hinv (Inv_single (by omega))
        (fun e he => by
          rcases List.mem_cons.mp he with rfl | he2
          · show a ≤ x.high + 1
            omega
          · cases he2)
        (fun e he => by
          rcases List.mem_cons.mp he with rfl | he2
          · show b ≤ b
            omega
          · cases he2)
    have hFpts : ptsF (u ++ ([(x.high + 1, b)] ++ w)) =
        ptsF (u ++ (a, b) :: w) \ Finset.Icc x.low x.high :=
      ptsF_parts hu_pts hw_pts hmidpts
    have hl2 : l2 = u ++ ([(x.high + 1, b)] ++ w) :=
      Inv_canonical hr2 hFinv (by rw [hr3, ← hFpts])
    rw [hsplit, hF, ← hl2]
    exact hr1
  · -- only the low-end reinsertion (b = x.high)
    have hmid2 : mapInsert a (x.low - 1) (u ++ w) = u ++ (a, x.low - 1) :: w :=
      mapInsert_position hposu
        (fun f hf => by have := hw_low f hf; omega)
    have hF : specSplit x a b (u ++ (a, b) :: w) =
        u ++ ([(a, x.low - 1)] ++ w) := by
      unfold specSplit
      rw [if_pos ha2, if_neg hb2, herase, hmid2]
      rfl
    have hmidpts : ptsF [((a : Int), x.low - 1)] =
        Finset.Icc a b \ Finset.Icc x.low x.high := by
      ext p
      simp only [ptsF_cons, ptsF_nil, Finset.mem_union, Finset.not_mem_empty,
        or_false, Finset.mem_sdiff, Finset.mem_Icc]
      omega
    have hFinv : Inv (u ++ ([(a, x.low - 1)] ++ w)) :=
      Inv_of_parts hinv (Inv_single (by omega))
        (fun e he => by
          rcases List.mem_cons.mp he with rfl | he2
          · show a ≤ a
            omega
          · cases he2)
        (fun e he => by
          rcases List.mem_cons.mp he with rfl | he2
          · show x.low - 1 ≤ b
            omega
          · cases he2)
    have hFpts : ptsF (u ++ ([(a, x.low - 1)] ++ w)) =
        ptsF (u ++ (a, b) :: w) \ Finset.Icc x.low x.high :=
      ptsF_parts hu_pts hw_pts hmidpts
    have hl2 : l2 = u ++ ([(a, x.low - 1)] ++ w) :=
      Inv_canonical hr2 hFinv (by rw [hr3, ← hFpts])
    rw [hsplit, hF, ← hl2]
    exact hr1
  · -- no reinsertion: contradiction with (a, b) ≠ x
    exact absurd ⟨by omega, by omega⟩ hne

theorem C8_witness :
    (Inv ({ m_ranges := [((20 : Int), (27 : Int))], m_range_size := none } :
        disjoint_range_tree).m_ranges ∧
      ((23 : Int) ≤ 23) ∧
      ((20 : Int), (27 : Int)) ∈
        ({ m_ranges := [((20 : Int), (27 : Int))], m_range_size := none } :
          disjoint_range_tree).m_ranges ∧
      ((20 : Int) ≤ 23) ∧ ((23 : Int) ≤ 27) ∧
      ¬((20 : Int) = 23 ∧ (27 : Int) = 23)) ∧
    remove ⟨23, 23⟩ { m_ranges := [(20, 27)], m_range_size := none } =
      some ({ m_ranges := specSplit ⟨23, 23⟩ 20 27 [(20, 27)],
              m_range_size := none }, true) :=
  ⟨⟨⟨by decide, List.chain'_singleton _⟩, by decide, by decide, by decide,
     by decide, by decide⟩,
   C8 { m_ranges := [(20, 27)], m_range_size := none } ⟨23, 23⟩ 20 27
     ⟨by decide, List.chain'_singleton _⟩ (by decide) (by decide) (by decide)
     (by decide) (by decide)⟩

/-- The concrete scenario of claim C8 starts with add_range(20,27) on the
empty tree, whose merge scan reads the past-the-end position: the program
does not define the scenario's intermediate state, refuting the original
claim's scenario conjunct as a statement about the source. -/
theorem C8_cex : addRangeHitsEnd ⟨20, 27⟩ drt_empty = true := rfl

/-- Claim C9: if the query range X shares no integer point with any stored
range of an invariant-satisfying collection, remove(X) returns false and the
stored ranges are identical before and after the call (only the cached size is
cleared). -/
theorem C9 (s : disjoint_range_tree) (x : Range) (hinv : Inv s.m_ranges)
    (hx : x.low ≤ x.high)
    (hdisj : ∀ e ∈ s.m_ranges, e.2 < x.low ∨ x.high < e.1) :
    remove x s = some ({ m_ranges := s.m_ranges, m_range_size := none },
      false) := by
  obtain ⟨l2, ret, hr1, hr2, hr3, hr4⟩ := remove_spec hinv hx
  have hno : ¬∃ w ∈ ptsF s.m_ranges, x.low ≤ w ∧ w ≤ x.high := by
    rintro ⟨w, hw, h1, h2⟩
    obtain ⟨e, he, h3, h4⟩ := mem_ptsF.mp hw
    rcases hdisj e he with h | h <;> omega
  have hret : ret = false := by
    cases ret with
    | false => rfl
    | true => exact absurd (hr4.mp rfl) hno
  have hpts : ptsF l2 = ptsF s.m_ranges := by
    rw [hr3]
    ext p
    simp only [Finset.mem_sdiff, Finset.mem_Icc]
    constructor
    · exact fun h => h.1
    · intro hp
      refine ⟨hp, fun hcon => ?_⟩
      exact hno ⟨p, hp, hcon.1, hcon.2⟩
  have hl2 : l2 = s.m_ranges := Inv_canonical hr2 hinv hpts
  rw [hret, hl2] at hr1
  exact hr1

theorem C9_witness :
    (Inv [((1 : Int), (3 : Int)), (10, 12)] ∧ ((5 : Int) ≤ 8) ∧
      ∀ e ∈ [((1 : Int), (3 : Int)), (10, 12)], e.2 < 5 ∨ 8 < e.1) ∧
    remove ⟨5, 8⟩ { m_ranges := [(1, 3), (10, 12)], m_range_size := some 7 } =
      some ({ m_ranges := [(1, 3), (10, 12)], m_range_size := none }, false) :=
  ⟨⟨⟨by decide, List.chain'_cons.mpr ⟨by decide, List.chain'_singleton _⟩⟩,
     by decide, by decide⟩,
   C9 { m_ranges := [(1, 3), (10, 12)], m_range_size := some 7 } ⟨5, 8⟩
     ⟨by decide, List.chain'_cons.mpr ⟨by decide, List.chain'_singleton _⟩⟩
     (by decide) (by decide)⟩

/-- Claim C10: the cache-coherence invariant (cached size, when present,
equals the sum of the stored ranges' sizes) is preserved by add_range —
including its early-return no-op path, which skips the invalidation but
changes no entry — by remove, and by size; and under it size never returns a
stale value (contains, lowest and highest are read-only in the embedding and
cannot affect it). -/
theorem C10 (s : disjoint_range_tree) (hc : CacheOK s) :
    (∀ r : Range, CacheOK (add_range r s)) ∧
    (∀ (x : Range) (s2 : disjoint_range_tree) (ret : Bool),
      remove x s = some (s2, ret) → CacheOK s2) ∧
    CacheOK (size s).2 ∧ (size s).1 = sumSizes s.m_ranges ∧
    (size s).2.m_ranges = s.m_ranges := by
  refine ⟨?_, ?_, ?_⟩
  · intro r
    rcases add_range_cache r s with h | h
    · intro n hn
      rw [h] at hn
      cases hn
    · rw [h]
      exact hc
  · intro x s2 ret h
    intro n hn
    rw [remove_cache_none h] at hn
    cases hn
  · obtain ⟨l, c⟩ := s
    cases c with
    | none =>
      refine ⟨?_, rfl, rfl⟩
      intro n hn
      exact (Option.some.inj hn).symm
    | some n0 =>
      exact ⟨hc, hc n0 rfl, rfl⟩

theorem C10_witness :
    CacheOK drt_empty ∧ (size drt_empty).1 = sumSizes drt_empty.m_ranges :=
  ⟨fun n hn => Option.noConfusion hn,
   (C10 drt_empty (fun n hn => Option.noConfusion hn)).2.2.2.1⟩

end tarp
